import Mathlib

/-!
Verification of the evmd EVM time-travel debugger core against its
specification. The development shallowly embeds the TypeScript sources:
the opcode table and assembler/disassembler (packages/core), the
EthereumjsEngine helpers (terminal-opcode normalization, exception
mapping, synthetic-STOP stripping), and the DebugSession navigation
layer (flattening, cursor operations, breakpoints). Strings are
embedded as lists of characters, JavaScript numbers as Nat or Int, and
thrown exceptions as Except values.
-/

set_option maxHeartbeats 1000000

namespace Evmd

/-- Strings from the TypeScript sources are embedded as lists of characters. -/
abbrev Str := List Char

deriving instance DecidableEq for Except

/-- Uppercasing of one character as done by String.prototype.toUpperCase on
the ASCII range (the only range assembler tokens can contain). -/
def toUpperChar (c : Char) : Char :=
  if 'a' ≤ c ∧ c ≤ 'z' then Char.ofNat (c.toNat - 32) else c

/-- Lowercasing of one character as done by String.prototype.toLowerCase on
the ASCII range. -/
def toLowerChar (c : Char) : Char :=
  if 'A' ≤ c ∧ c ≤ 'Z' then Char.ofNat (c.toNat + 32) else c

def toUpperStr (s : Str) : Str := s.map toUpperChar

def toLowerStr (s : Str) : Str := s.map toLowerChar

/-- Whitespace as matched by the regex class backslash-s and by
String.prototype.trim, restricted to the characters assembler input can
contain. -/
def isWs (c : Char) : Bool := c = ' ' ∨ c = '\t' ∨ c = '\n' ∨ c = '\r'

def isDigitChar (c : Char) : Bool := '0' ≤ c ∧ c ≤ '9'

/-- Lowercase hex digit, the class [0-9a-f] used by the disassembler. -/
def isLowerHexChar (c : Char) : Bool := isDigitChar c ∨ ('a' ≤ c ∧ c ≤ 'f')

/-- Hex digit of either case, as accepted by the BigInt string grammar. -/
def isHexChar (c : Char) : Bool := isLowerHexChar c ∨ ('A' ≤ c ∧ c ≤ 'F')

/-- Numeric value of a hex digit (meaningful only on hex digits). -/
def hexVal (c : Char) : Nat :=
  if isDigitChar c then c.toNat - 48
  else if 'a' ≤ c ∧ c ≤ 'f' then c.toNat - 87
  else c.toNat - 55

/-- Lowercase hex digit character for a value below 16. -/
def hexDigitChar (d : Nat) : Char :=
  if d < 10 then Char.ofNat (48 + d) else Char.ofNat (87 + d)

/-- Auxiliary for natToHex, structurally recursive on fuel. Fuel n is always
enough for value n because the value strictly decreases under division
by 16. -/
def natToHexAux : Nat → Nat → Str
  | 0, _ => []
  | fuel + 1, n =>
    if n = 0 then [] else natToHexAux fuel (n / 16) ++ [hexDigitChar (n % 16)]

/-- Hex rendering of a natural number as produced by JavaScript
toString(16): lowercase, no leading zeros, and the single digit 0 for
zero. -/
def natToHex (n : Nat) : Str := if n = 0 then ['0'] else natToHexAux n n

/-- JavaScript String.prototype.padStart with a single pad character. -/
def padStart (s : Str) (len : Nat) (c : Char) : Str :=
  List.replicate (len - s.length) c ++ s

/-- Big-endian accumulation of hex digits (the value of a hex digit string,
as computed by BigInt on a 0x literal and by parseInt with radix 16 on
valid input). -/
def parseHexNat (s : Str) : Nat := s.foldl (fun acc c => acc * 16 + hexVal c) 0

/-- Big-endian accumulation of decimal digits. -/
def parseDecNat (s : Str) : Nat := s.foldl (fun acc c => acc * 10 + (c.toNat - 48)) 0

def parseBinNat (s : Str) : Nat := s.foldl (fun acc c => acc * 2 + (c.toNat - 48)) 0

def parseOctNat (s : Str) : Nat := s.foldl (fun acc c => acc * 8 + (c.toNat - 48)) 0

/-- Trim as in String.prototype.trim: drop whitespace from both ends. -/
def trimStr (s : Str) : Str :=
  ((s.dropWhile isWs).reverse.dropWhile isWs).reverse

/-- Substring containment as in String.prototype.includes: the needle occurs
contiguously somewhere in the haystack. -/
def isSubstr (needle : Str) : Str → Bool
  | [] => needle.isEmpty
  | c :: rest => needle.isPrefixOf (c :: rest) || isSubstr needle rest

/-- Failure modes of parseValue and toHex in assembler.ts. The TypeScript
throws Error values carrying a message; the data each message interpolates is
kept as fields. emptyHexLiteral is the explicit Invalid-hex-value throw for a
bare 0x prefix, syntaxError stands for a SyntaxError thrown by BigInt on a
token outside its string grammar. -/
inductive ValueError where
  | emptyHexLiteral : ValueError
  | syntaxError : ValueError
  | negativeValue (v : Int) : ValueError
  | valueTooLarge (v : Int) (byteCount : Nat) : ValueError
deriving DecidableEq

/-- Lowered from parseValue in assembler.ts: trim, then if the token starts
with 0x or 0X parse it as a hex literal (a bare prefix is rejected
explicitly, any non-hex character makes BigInt throw), otherwise hand it to
BigInt, whose string integer grammar accepts an optional sign followed by
decimal digits, unsigned 0b/0B binary and 0o/0O octal literals, and the
empty string (value 0). -/
def parseValue (s0 : Str) : Except ValueError Int :=
  let s := trimStr s0
  if ['0', 'x'].isPrefixOf s ∨ ['0', 'X'].isPrefixOf s then
    if s.length ≤ 2 then .error .emptyHexLiteral
    else
      let digits := s.drop 2
      if digits.all isHexChar then .ok (parseHexNat digits) else .error .syntaxError
  else
    match s with
    | '0' :: 'b' :: rest =>
      if rest ≠ [] ∧ rest.all (fun c => c = '0' ∨ c = '1') then .ok (parseBinNat rest)
      else .error .syntaxError
    | '0' :: 'B' :: rest =>
      if rest ≠ [] ∧ rest.all (fun c => c = '0' ∨ c = '1') then .ok (parseBinNat rest)
      else .error .syntaxError
    | '0' :: 'o' :: rest =>
      if rest ≠ [] ∧ rest.all (fun c => '0' ≤ c ∧ c ≤ '7') then .ok (parseOctNat rest)
      else .error .syntaxError
    | '0' :: 'O' :: rest =>
      if rest ≠ [] ∧ rest.all (fun c => '0' ≤ c ∧ c ≤ '7') then .ok (parseOctNat rest)
      else .error .syntaxError
    | '-' :: rest =>
      if rest ≠ [] ∧ rest.all isDigitChar then .ok (-(parseDecNat rest : Int))
      else .error .syntaxError
    | '+' :: rest =>
      if rest ≠ [] ∧ rest.all isDigitChar then .ok (parseDecNat rest)
      else .error .syntaxError
    | rest =>
      if rest.all isDigitChar then .ok (parseDecNat rest) else .error .syntaxError

/-- Lowered from toHex in assembler.ts: reject negatives, reject values that
do not fit in byteCount bytes, otherwise render lowercase hex left-padded
with zeros to exactly 2 * byteCount characters. -/
def toHex (value : Int) (byteCount : Nat) : Except ValueError Str :=
  if value < 0 then .error (.negativeValue value)
  else
    let maxValue : Int := 2 ^ (byteCount * 8) - 1
    if value > maxValue then .error (.valueTooLarge value byteCount)
    else .ok (padStart (natToHex value.toNat) (byteCount * 2) '0')

/-- Static metadata for one defined opcode, from types.ts. -/
structure OpcodeInfo where
  code : Nat
  mnemonic : Str
  inputNames : List String
  outputNames : List String
  immediateBytes : Nat
deriving DecidableEq

/-- Helper mirroring the op builder in opcodes.ts for opcodes without an
immediate. -/
def op (code : Nat) (mnemonic : String) (ins outs : List String) : OpcodeInfo :=
  ⟨code, mnemonic.data, ins, outs, 0⟩

/-- Helper mirroring the op builder in opcodes.ts with an explicit immediate
byte count. -/
def opImm (code : Nat) (mnemonic : String) (ins outs : List String)
    (imm : Nat) : OpcodeInfo :=
  ⟨code, mnemonic.data, ins, outs, imm⟩

/-- Full opcode table from opcodes.ts, in source order: explicit entries plus
the PUSH1..PUSH32, DUP1..DUP16 and SWAP1..SWAP16 families generated from
ranges. -/
def opcodeTable : List OpcodeInfo :=
  [ op 0x00 "STOP" [] [],
    op 0x01 "ADD" ["a", "b"] ["sum"],
    op 0x02 "MUL" ["a", "b"] ["product"],
    op 0x03 "SUB" ["a", "b"] ["difference"],
    op 0x04 "DIV" ["a", "b"] ["quotient"],
    op 0x05 "SDIV" ["a", "b"] ["quotient"],
    op 0x06 "MOD" ["a", "b"] ["remainder"],
    op 0x07 "SMOD" ["a", "b"] ["remainder"],
    op 0x08 "ADDMOD" ["a", "b", "N"] ["result"],
    op 0x09 "MULMOD" ["a", "b", "N"] ["result"],
    op 0x0a "EXP" ["a", "exponent"] ["result"],
    op 0x0b "SIGNEXTEND" ["b", "x"] ["result"],
    op 0x10 "LT" ["a", "b"] ["result"],
    op 0x11 "GT" ["a", "b"] ["result"],
    op 0x12 "SLT" ["a", "b"] ["result"],
    op 0x13 "SGT" ["a", "b"] ["result"],
    op 0x14 "EQ" ["a", "b"] ["result"],
    op 0x15 "ISZERO" ["a"] ["result"],
    op 0x16 "AND" ["a", "b"] ["result"],
    op 0x17 "OR" ["a", "b"] ["result"],
    op 0x18 "XOR" ["a", "b"] ["result"],
    op 0x19 "NOT" ["a"] ["result"],
    op 0x1a "BYTE" ["i", "x"] ["result"],
    op 0x1b "SHL" ["shift", "value"] ["result"],
    op 0x1c "SHR" ["shift", "value"] ["result"],
    op 0x1d "SAR" ["shift", "value"] ["result"],
    op 0x20 "KECCAK256" ["offset", "size"] ["hash"],
    op 0x30 "ADDRESS" [] ["address"],
    op 0x31 "BALANCE" ["address"] ["balance"],
    op 0x32 "ORIGIN" [] ["address"],
    op 0x33 "CALLER" [] ["address"],
    op 0x34 "CALLVALUE" [] ["value"],
    op 0x35 "CALLDATALOAD" ["i"] ["data"],
    op 0x36 "CALLDATASIZE" [] ["size"],
    op 0x37 "CALLDATACOPY" ["destOffset", "offset", "size"] [],
    op 0x38 "CODESIZE" [] ["size"],
    op 0x39 "CODECOPY" ["destOffset", "offset", "size"] [],
    op 0x3a "GASPRICE" [] ["price"],
    op 0x3b "EXTCODESIZE" ["address"] ["size"],
    op 0x3c "EXTCODECOPY" ["address", "destOffset", "offset", "size"] [],
    op 0x3d "RETURNDATASIZE" [] ["size"],
    op 0x3e "RETURNDATACOPY" ["destOffset", "offset", "size"] [],
    op 0x3f "EXTCODEHASH" ["address"] ["hash"],
    op 0x40 "BLOCKHASH" ["blockNumber"] ["hash"],
    op 0x41 "COINBASE" [] ["address"],
    op 0x42 "TIMESTAMP" [] ["timestamp"],
    op 0x43 "NUMBER" [] ["blockNumber"],
    op 0x44 "PREVRANDAO" [] ["prevRandao"],
    op 0x45 "GASLIMIT" [] ["gasLimit"],
    op 0x46 "CHAINID" [] ["chainId"],
    op 0x47 "SELFBALANCE" [] ["balance"],
    op 0x48 "BASEFEE" [] ["baseFee"],
    op 0x50 "POP" ["value"] [],
    op 0x51 "MLOAD" ["offset"] ["value"],
    op 0x52 "MSTORE" ["offset", "value"] [],
    op 0x53 "MSTORE8" ["offset", "value"] [],
    op 0x54 "SLOAD" ["key"] ["value"],
    op 0x55 "SSTORE" ["key", "value"] [],
    op 0x56 "JUMP" ["dest"] [],
    op 0x57 "JUMPI" ["dest", "cond"] [],
    op 0x58 "PC" [] ["counter"],
    op 0x59 "MSIZE" [] ["size"],
    op 0x5a "GAS" [] ["gas"],
    op 0x5b "JUMPDEST" [] [],
    op 0x5c "TLOAD" ["key"] ["value"],
    op 0x5d "TSTORE" ["key", "value"] [],
    op 0x5e "MCOPY" ["destOffset", "offset", "size"] [],
    op 0x5f "PUSH0" [] ["value"] ]
  ++ (List.range 32).map (fun i =>
       opImm (0x60 + i) ("PUSH" ++ toString (i + 1)) [] ["value"] (i + 1))
  ++ (List.range 16).map (fun i =>
       op (0x80 + i) ("DUP" ++ toString (i + 1))
         ["value" ++ toString (i + 1)] ["value" ++ toString (i + 1), "copy"])
  ++ (List.range 16).map (fun i =>
       op (0x90 + i) ("SWAP" ++ toString (i + 1)) ["a", "b"] ["b", "a"])
  ++ [ op 0xa0 "LOG0" ["offset", "size"] [],
       op 0xa1 "LOG1" ["offset", "size", "topic1"] [],
       op 0xa2 "LOG2" ["offset", "size", "topic1", "topic2"] [],
       op 0xa3 "LOG3" ["offset", "size", "topic1", "topic2", "topic3"] [],
       op 0xa4 "LOG4" ["offset", "size", "topic1", "topic2", "topic3", "topic4"] [],
       op 0xf0 "CREATE" ["value", "offset", "size"] ["address"],
       op 0xf1 "CALL"
         ["gas", "address", "value", "argsOffset", "argsLength", "retOffset", "retLength"]
         ["success"],
       op 0xf2 "CALLCODE"
         ["gas", "address", "value", "argsOffset", "argsLength", "retOffset", "retLength"]
         ["success"],
       op 0xf3 "RETURN" ["offset", "size"] [],
       op 0xf4 "DELEGATECALL"
         ["gas", "address", "argsOffset", "argsLength", "retOffset", "retLength"]
         ["success"],
       op 0xf5 "CREATE2" ["value", "offset", "size", "salt"] ["address"],
       op 0xfa "STATICCALL"
         ["gas", "address", "argsOffset", "argsLength", "retOffset", "retLength"]
         ["success"],
       op 0xfd "REVERT" ["offset", "size"] [],
       op 0xfe "INVALID" [] [],
       op 0xff "SELFDESTRUCT" ["address"] [] ]

/-- Lookup by opcode byte. The TypeScript builds a Map by inserting every
table entry in order; since codes are pairwise distinct in the table,
first-match search over the list agrees with the Map. -/
def getOpcodeByCode (code : Nat) : Option OpcodeInfo :=
  opcodeTable.find? (fun info => info.code == code)

/-- Lookup by mnemonic; same Map-as-first-match remark as getOpcodeByCode. -/
def getOpcodeByMnemonic (mnemonic : Str) : Option OpcodeInfo :=
  opcodeTable.find? (fun info => info.mnemonic == mnemonic)

theorem dropWhile_length_le {α : Type} (p : α → Bool) (l : List α) :
    (l.dropWhile p).length ≤ l.length := by
  induction l with
  | nil => simp
  | cons a l ih =>
    by_cases h : p a
    · rw [List.dropWhile_cons_of_pos h]
      exact le_trans ih (by simp)
    · rw [List.dropWhile_cons_of_neg h]

/-- Skip to the end of a block comment: consume characters up to and
including the first star-slash pair. If the input runs out first the rest is
consumed entirely, including the boundary case where a single character
remains, which the index arithmetic of the source steps past. -/
def skipBlockComment : Str → Str
  | [] => []
  | [_] => []
  | '*' :: '/' :: rest => rest
  | _ :: c2 :: rest => skipBlockComment (c2 :: rest)

theorem skipBlockComment_length_le (s : Str) :
    (skipBlockComment s).length ≤ s.length := by
  induction s using skipBlockComment.induct with
  | case1 => simp [skipBlockComment]
  | case2 => simp [skipBlockComment]
  | case3 rest => simp [skipBlockComment]; omega
  | case4 c c2 rest h1 ih =>
    rw [skipBlockComment]
    · exact le_trans ih (by simp)
    · exact h1

/-- Lowered from stripComments in assembler.ts: drop line comments up to but
not including the terminating newline, and block comments including their
delimiters; all other characters are copied. -/
def stripComments : Str → Str
  | [] => []
  | '/' :: '/' :: rest => stripComments (rest.dropWhile (fun c => c ≠ '\n'))
  | '/' :: '*' :: rest => stripComments (skipBlockComment rest)
  | c :: rest => c :: stripComments rest
termination_by s => s.length
decreasing_by
  · have := dropWhile_length_le (fun c => decide (c ≠ '\n')) rest
    simp only [List.length_cons]
    omega
  · have := skipBlockComment_length_le rest
    simp only [List.length_cons]
    omega
  · simp

/-- JavaScript String.prototype.split on the newline character: segments
between newlines, with the empty string yielding one empty segment. -/
def splitNl : Str → List Str
  | [] => [[]]
  | '\n' :: rest => [] :: splitNl rest
  | c :: rest =>
    match splitNl rest with
    | [] => [[c]]
    | seg :: segs => (c :: seg) :: segs

/-- Split into maximal whitespace-free tokens. On a trimmed nonempty line
this is exactly what the split call on the whitespace-run regex in assemble
produces (leading whitespace, which would yield an initial empty token in
JavaScript, cannot occur there). -/
def splitWs : Str → List Str
  | [] => []
  | c :: rest =>
    if hc : isWs c then splitWs (rest.dropWhile isWs)
    else
      ((c :: rest).takeWhile (fun x => !isWs x)) ::
        splitWs ((c :: rest).dropWhile (fun x => !isWs x))
termination_by s => s.length
decreasing_by
  · have := dropWhile_length_le isWs rest
    simp only [List.length_cons]
    omega
  · have h2 : List.dropWhile (fun x => !isWs x) (c :: rest)
        = List.dropWhile (fun x => !isWs x) rest := by
      rw [List.dropWhile_cons_of_pos (by simp [hc])]
    rw [h2]
    have := dropWhile_length_le (fun x => !isWs x) rest
    simp only [List.length_cons]
    omega

/-- Errors thrown by assemble, carrying the data interpolated into each
thrown message; line numbers are 1-based as in the messages. -/
inductive AsmError where
  | unknownMnemonic (tokenRaw : Str) (line : Nat) : AsmError
  | missingImmediate (mnemonic : Str) (immediateBytes : Nat) (line : Nat) : AsmError
  | invalidImmediate (mnemonic : Str) (line : Nat) (inner : ValueError) : AsmError
deriving DecidableEq

/-- Body of the assemble loop in assembler.ts for the line at 0-based index
lineNum: the hex contribution of that line (empty for a blank line), or the
error assemble throws there. -/
def assembleLine (lineNum : Nat) (rawLine : Str) : Except AsmError Str :=
  let line := trimStr rawLine
  if line = [] then .ok []
  else
    let parts := splitWs line
    let mnemonic := toUpperStr (parts.headD [])
    match getOpcodeByMnemonic mnemonic with
    | none => .error (.unknownMnemonic (parts.headD []) (lineNum + 1))
    | some info =>
      let opHex := padStart (natToHex info.code) 2 '0'
      if info.immediateBytes > 0 then
        if parts.length < 2 then
          .error (.missingImmediate mnemonic info.immediateBytes (lineNum + 1))
        else
          match parseValue (parts.getD 1 []) with
          | .error e => .error (.invalidImmediate mnemonic (lineNum + 1) e)
          | .ok value =>
            match toHex value info.immediateBytes with
            | .error e => .error (.invalidImmediate mnemonic (lineNum + 1) e)
            | .ok immHex => .ok (opHex ++ immHex)
      else .ok opHex

/-- Sequencing of assembleLine over the numbered lines, concatenating the hex
output and aborting at the first error, exactly as the loop in assemble
does. -/
def assembleLines : Nat → List Str → Except AsmError Str
  | _, [] => .ok []
  | lineNum, l :: ls => do
    let hex ← assembleLine lineNum l
    let rest ← assembleLines (lineNum + 1) ls
    .ok (hex ++ rest)

/-- Lowered from assemble in assembler.ts: strip comments, split into lines,
process every line in order, and prefix the concatenated hex with 0x. -/
def assemble (source : Str) : Except AsmError Str :=
  (assembleLines 0 (splitNl (stripComments source))).map
    (fun body => '0' :: 'x' :: body)

/-- Errors thrown by disassemble. -/
inductive DisasmError where
  | oddLengthHex : DisasmError
  | nonHexChar : DisasmError
deriving DecidableEq

/-- Newline join, as in the join call at the end of disassemble. -/
def joinNl (lines : List Str) : Str := List.intercalate ['\n'] lines

/-- Main loop of disassemble in assembler.ts on the normalized
(prefix-stripped, lowercased, validated) hex characters: each iteration
consumes one opcode byte and, for opcodes with an immediate, up to
2 * immediateBytes operand characters; a short operand is emitted with a
truncation comment. The singleton clause mirrors the out-of-range slice
semantics and is unreachable on validated even-length input. -/
def disasmLoop : Str → List Str
  | [] => []
  | [c] =>
    let opByte := parseHexNat [c]
    (match getOpcodeByCode opByte with
     | none => "INVALID(0x".data ++ padStart (natToHex opByte) 2 '0' ++ ")".data
     | some info =>
       if info.immediateBytes > 0 then
         info.mnemonic ++ " 0x".data ++ " // truncated".data
       else info.mnemonic) :: []
  | c1 :: c2 :: rest =>
    let opByte := parseHexNat [c1, c2]
    match getOpcodeByCode opByte with
    | none =>
      ("INVALID(0x".data ++ padStart (natToHex opByte) 2 '0' ++ ")".data)
        :: disasmLoop rest
    | some info =>
      if info.immediateBytes > 0 then
        let dataHex := rest.take (info.immediateBytes * 2)
        let remaining := rest.drop (info.immediateBytes * 2)
        if dataHex.length < info.immediateBytes * 2 then
          (info.mnemonic ++ " 0x".data ++ dataHex ++ " // truncated".data)
            :: disasmLoop remaining
        else
          (info.mnemonic ++ " 0x".data ++ dataHex) :: disasmLoop remaining
      else info.mnemonic :: disasmLoop rest
termination_by s => s.length
decreasing_by all_goals (simp only [List.length_drop, List.length_cons]; omega)

/-- Lowered from disassemble in assembler.ts: strip an optional 0x or 0X
prefix, lowercase, reject odd length and non-hex characters, then run the
byte walk and join the resulting lines with newlines. -/
def disassemble (bytecode : Str) : Except DisasmError Str :=
  let hex0 :=
    if ['0', 'x'].isPrefixOf bytecode ∨ ['0', 'X'].isPrefixOf bytecode
    then bytecode.drop 2 else bytecode
  let hex := toLowerStr hex0
  if hex.length % 2 ≠ 0 then .error .oddLengthHex
  else if ¬ (hex.all isLowerHexChar) then .error .nonHexChar
  else .ok (joinNl (disasmLoop hex))

/-! Data model from types.ts. -/

/-- Closed set of frame exit reasons from types.ts. -/
inductive FrameExitReason where
  | success | revert | invalid | outOfGas | stackUnderflow
  | stackOverflow | invalidJump | writeProtection
deriving DecidableEq

structure StorageChange where
  slot : Str
  before : Str
  after : Str
deriving DecidableEq

structure MemoryState where
  current : Str
  expandedSize : Option Int
deriving DecidableEq

/-- Pre-execution observation of one opcode, from types.ts; stackAfter and
memoryAfter are the optional post-execution observations the engine fills
in. The optional storage snapshot is kept as an association list. -/
structure Step where
  pc : Nat
  opcode : Nat
  mnemonic : Str
  gasRemaining : Int
  gasCost : Int
  stack : List Str
  memory : MemoryState
  storageChanges : List StorageChange
  transientStorageChanges : List StorageChange
  depth : Nat
  storage : Option (List (Str × Str))
  stackAfter : Option (List Str)
  memoryAfter : Option Str
deriving DecidableEq

inductive FrameType where
  | CALL | STATICCALL | DELEGATECALL | CALLCODE | CREATE | CREATE2 | ROOT
deriving DecidableEq

structure FrameResult where
  exitReason : FrameExitReason
  returnData : Str
  gasUsed : Int
  deployedAddress : Option Str
deriving DecidableEq

/-- Call frame from types.ts. The children field holds the ChildFrame
records as pairs (stepIndex, frame): the index within the steps of this
frame at which the child was created, and the child frame. -/
inductive Frame where
  | mk (id : Str) (ftype : FrameType) (codeAddress : Str) (code : Str)
       (input : Str) (value : Int) (caller : Str) (gas : Int)
       (steps : List Step) (children : List (Int × Frame))
       (result : FrameResult) : Frame

def Frame.steps : Frame → List Step
  | .mk _ _ _ _ _ _ _ _ steps _ _ => steps

def Frame.children : Frame → List (Int × Frame)
  | .mk _ _ _ _ _ _ _ _ _ children _ => children

def Frame.fid : Frame → Str
  | .mk id _ _ _ _ _ _ _ _ _ _ => id

def Frame.result : Frame → FrameResult
  | .mk _ _ _ _ _ _ _ _ _ _ result => result

/-- Functional update of the steps field, used to model the in-place pop of
the synthetic STOP step. -/
def Frame.withSteps : Frame → List Step → Frame
  | .mk id ftype codeAddress code input value caller gas _ children result, steps =>
    .mk id ftype codeAddress code input value caller gas steps children result

inductive ExecMode where
  | deploy | call
deriving DecidableEq

structure TraceMetadata where
  mode : ExecMode
  deployedAddress : Option Str
  success : Bool
  returnData : Str
  gasUsed : Int
deriving DecidableEq

structure Trace where
  root : Frame
  metadata : TraceMetadata

/-! Engine helpers from the EthereumjsEngine source. -/

/-- Terminal opcodes that end execution (the TERMINAL_OPCODES set). -/
def TERMINAL_OPCODES : List Nat := [0x00, 0xf3, 0xfd, 0xfe, 0xff]

/-- Lowered from ensureTerminalOpcode: strip an optional lowercase 0x prefix,
append a STOP byte when fewer than two hex characters remain or when the
last byte is not terminal, and report whether STOP was appended. -/
def ensureTerminalOpcode (bytecode : Str) : Str × Bool :=
  let hex := if ['0', 'x'].isPrefixOf bytecode then bytecode.drop 2 else bytecode
  if hex.length < 2 then (bytecode ++ ['0', '0'], true)
  else
    let lastByte := parseHexNat (hex.drop (hex.length - 2))
    if TERMINAL_OPCODES.contains lastByte then (bytecode, false)
    else (bytecode ++ ['0', '0'], true)

/-- Lowered from mapExceptionToReason. The TypeScript first extracts a
message string from the unknown error value (error.error, else
error.message, else its String coercion); this embedding takes that
extracted message as input. -/
def mapExceptionToReason (errMsg : Str) : FrameExitReason :=
  let msg := toLowerStr errMsg
  if isSubstr "revert".data msg then .revert
  else if isSubstr "out of gas".data msg then .outOfGas
  else if isSubstr "stack underflow".data msg then .stackUnderflow
  else if isSubstr "stack overflow".data msg then .stackOverflow
  else if isSubstr "invalid jump".data msg then .invalidJump
  else if isSubstr "static".data msg then .writeProtection
  else .invalid

/-- Post-processing step of execute (remove the synthetic STOP): when a STOP
was appended and the root frame has steps whose last opcode is STOP, pop
that last step. -/
def stripSyntheticStop (appendedStop : Bool) (rootFrame : Frame) : Frame :=
  if appendedStop ∧ rootFrame.steps.length > 0 then
    match rootFrame.steps.getLast? with
    | some lastStep =>
      if lastStep.opcode = 0x00 then rootFrame.withSteps rootFrame.steps.dropLast
      else rootFrame
    | none => rootFrame
  else rootFrame

/-! Debug session from debug-session.ts. -/

/-- One entry of the flattened step list. In the TypeScript, frame is an
object reference and the step-over loop compares it with reference equality;
in this embedding of the frame tree each node is identified by framePath,
the list of child positions leading to it from the root, which coincides
with reference equality for the trees the engine builds (every node is a
distinct object). The isFrameEnd flag is optional in the source and absent
means false. -/
structure FlatStep where
  frame : Frame
  framePath : List Nat
  stepIndex : Int
  callStack : List Frame
  isFrameEnd : Bool

/-- Loop body of the visit function in flattenSteps, iterating over the
steps of one frame: emit the entry for step i, then splice in the flattened
traces of the children spawned at step i (the persistent childIdx cursor of
the source is modelled by carrying the not-yet-consumed suffix of the
pre-flattened children list; takeWhile/dropWhile is the inner while loop). -/
def visitLoop (f : Frame) (path : List Nat) (callStack : List Frame) :
    List Step → Int → List (Int × List FlatStep) → List FlatStep
  | [], _, _ => []
  | _ :: rest, i, children =>
    { frame := f, framePath := path, stepIndex := i, callStack := callStack,
      isFrameEnd := false }
      :: (((children.takeWhile (fun c => c.1 == i)).map Prod.snd).flatten
          ++ visitLoop f path callStack rest (i + 1)
               (children.dropWhile (fun c => c.1 == i)))

mutual
/-- Lowered from the recursive visit in flattenSteps: extend the call stack,
interleave the steps of this frame with the flattened children, and append
the virtual frame-end marker (stepIndex -1). -/
def visit (f : Frame) (path : List Nat) (parentStack : List Frame) :
    List FlatStep :=
  match f with
  | .mk _ _ _ _ _ _ _ _ steps children _ =>
    visitLoop f path (parentStack ++ [f]) steps 0
        (visitChildren path (parentStack ++ [f]) 0 children)
      ++ [{ frame := f, framePath := path, stepIndex := -1,
            callStack := parentStack ++ [f], isFrameEnd := true }]

/-- Flatten every child frame, pairing its spawning stepIndex with its
flattened trace; k is the position of the child in the children list, used
to extend the identifying path. -/
def visitChildren (path : List Nat) (callStack : List Frame) (k : Nat) :
    List (Int × Frame) → List (Int × List FlatStep)
  | [] => []
  | c :: cs =>
    (c.1, visit c.2 (path ++ [k]) callStack) :: visitChildren path callStack (k + 1) cs
end

/-- Unfolding equation of visit on a constructor, usable for rewriting. -/
theorem visit_mk (id : Str) (ftype : FrameType) (ca code input : Str)
    (value : Int) (caller : Str) (gas : Int) (steps : List Step)
    (children : List (Int × Frame)) (result : FrameResult)
    (path : List Nat) (stack : List Frame) :
    visit (.mk id ftype ca code input value caller gas steps children result)
        path stack
      = visitLoop (.mk id ftype ca code input value caller gas steps children result)
          path (stack ++ [.mk id ftype ca code input value caller gas steps children result])
          steps 0
          (visitChildren path
            (stack ++ [.mk id ftype ca code input value caller gas steps children result])
            0 children)
        ++ [{ frame := .mk id ftype ca code input value caller gas steps children result,
              framePath := path, stepIndex := -1,
              callStack := stack
                ++ [.mk id ftype ca code input value caller gas steps children result],
              isFrameEnd := true }] := rfl

/-- Lowered from flattenSteps in debug-session.ts. -/
def flattenSteps (root : Frame) : List FlatStep := visit root [] []

/-- Frame-creating opcodes from debug-session.ts. -/
def FRAME_CREATING_OPCODES : List Nat := [0xf0, 0xf1, 0xf2, 0xf4, 0xf5, 0xfa]

/-- JavaScript array indexing with a possibly negative or out-of-range
index: undefined outside the bounds. -/
def listGetInt {α : Type} (l : List α) (i : Int) : Option α :=
  if i < 0 then none else l.get? i.toNat

/-- Debug session state: the immutable flattened trace and the cursor. The
cursor is a Nat because every reachable session keeps it within bounds
(claim C10); the trace field of the source is dropped here since no
operation reads it back. -/
structure DebugSession where
  flatSteps : List FlatStep
  globalStepIndex : Nat

namespace DebugSession

/-- Constructor: flatten the trace and start the cursor at 0. -/
def new (trace : Trace) : DebugSession :=
  { flatSteps := flattenSteps trace.root, globalStepIndex := 0 }

/-- Flat entry at the cursor (the source indexes flatSteps directly; for
reachable sessions the index is always in bounds). -/
def currentFlat (s : DebugSession) : Option FlatStep :=
  s.flatSteps.get? s.globalStepIndex

/-- Getter currentStep: null at a frame-end marker, otherwise
frame.steps[stepIndex]. -/
def currentStep (s : DebugSession) : Option Step :=
  match s.currentFlat with
  | none => none
  | some fl => if fl.isFrameEnd then none else listGetInt fl.frame.steps fl.stepIndex

/-- Getter isAtFrameEnd. -/
def isAtFrameEnd (s : DebugSession) : Bool :=
  match s.currentFlat with
  | some fl => fl.isFrameEnd
  | none => false

/-- Getter callStack (empty as junk value when the cursor is out of bounds,
which cannot happen for reachable sessions). -/
def getCallStack (s : DebugSession) : List Frame :=
  match s.currentFlat with
  | some fl => fl.callStack
  | none => []

def stepForward (s : DebugSession) : DebugSession :=
  if s.globalStepIndex < s.flatSteps.length - 1 then
    { s with globalStepIndex := s.globalStepIndex + 1 }
  else s

def stepBackward (s : DebugSession) : DebugSession :=
  if s.globalStepIndex > 0 then
    { s with globalStepIndex := s.globalStepIndex - 1 }
  else s

/-- Getter canStepOver: the current step exists and is a frame-creating
opcode. -/
def canStepOver (s : DebugSession) : Bool :=
  match s.currentStep with
  | none => false
  | some st => FRAME_CREATING_OPCODES.contains st.opcode

/-- While loop of stepOver: advance the cursor until it is back at an entry
of the remembered frame with a different step index, or the last flat index
is reached. -/
def stepOverLoop (flats : List FlatStep) (curPath : List Nat) (curIdx : Int)
    (idx : Nat) : Nat :=
  if idx < flats.length - 1 then
    let idx1 := idx + 1
    match flats.get? idx1 with
    | some fl =>
      if fl.framePath = curPath ∧ fl.stepIndex ≠ curIdx then idx1
      else stepOverLoop flats curPath curIdx idx1
    | none => idx1
  else idx
termination_by flats.length - idx

def stepOver (s : DebugSession) : DebugSession :=
  match s.currentStep with
  | none => s.stepForward
  | some st =>
    if FRAME_CREATING_OPCODES.contains st.opcode then
      match s.currentFlat with
      | some cur =>
        { s with globalStepIndex :=
            stepOverLoop s.flatSteps cur.framePath cur.stepIndex s.globalStepIndex }
      | none => s
    else s.stepForward

def canStepOut (s : DebugSession) : Bool := s.getCallStack.length > 1

def jumpToStart (s : DebugSession) : DebugSession :=
  { s with globalStepIndex := 0 }

def jumpToEnd (s : DebugSession) : DebugSession :=
  { s with globalStepIndex := s.flatSteps.length - 1 }

/-- While loop of stepOut: advance until the call stack is shallower than
the remembered depth or the last flat index is reached. -/
def stepOutLoop (flats : List FlatStep) (depth : Nat) (idx : Nat) : Nat :=
  if idx < flats.length - 1 then
    let idx1 := idx + 1
    match flats.get? idx1 with
    | some fl => if fl.callStack.length < depth then idx1 else stepOutLoop flats depth idx1
    | none => idx1
  else idx
termination_by flats.length - idx

def stepOut (s : DebugSession) : DebugSession :=
  let currentCallStack := s.getCallStack
  if currentCallStack.length ≤ 1 then s.jumpToEnd
  else
    { s with globalStepIndex :=
        stepOutLoop s.flatSteps currentCallStack.length s.globalStepIndex }

/-- Lowered from jumpTo: clamp the requested index into the valid range. -/
def jumpTo (s : DebugSession) (globalIndex : Int) : DebugSession :=
  { s with globalStepIndex :=
      (max 0 (min globalIndex ((s.flatSteps.length : Int) - 1))).toNat }

/-- Breakpoint condition from types.ts: any subset of the four fields. -/
structure BreakpointCondition where
  pc : Option Nat
  opcode : Option Nat
  storageSlot : Option Str
  globalStepIndex : Option Nat
deriving DecidableEq

structure Breakpoint where
  id : Str
  condition : BreakpointCondition
deriving DecidableEq

/-- Lowered from addBreakpoint, which unconditionally throws its
not-yet-implemented error. -/
def addBreakpoint (_condition : BreakpointCondition) : Except Str Breakpoint :=
  .error "addBreakpoint() not yet implemented".data

/-- Lowered from removeBreakpoint, a no-op. -/
def removeBreakpoint (s : DebugSession) (_id : Str) : DebugSession := s

/-- Lowered from getBreakpoints, which returns the empty list. -/
def getBreakpoints (_s : DebugSession) : List Breakpoint := []

/-- Lowered from continueForward: no scan is performed, the session is left
unchanged and false (no breakpoint hit) is returned. -/
def continueForward (s : DebugSession) : DebugSession × Bool := (s, false)

/-- Lowered from continueBackward: same unimplemented stub as
continueForward. -/
def continueBackward (s : DebugSession) : DebugSession × Bool := (s, false)

end DebugSession

/-! Specification-side definitions, written from the words of the
specification so the code-derived definitions can be compared against
them. -/

/-- Hex rendering of one byte: two lowercase hex characters. -/
def byteHex (b : Nat) : Str := padStart (natToHex b) 2 '0'

/-- Hex rendering of a byte sequence, two characters per byte. -/
def bytesToHex (bytes : List Nat) : Str := (bytes.map byteHex).flatten

/-- Keyword table of the exception mapping in the order fixed by the
specification. -/
def exitReasonKeywords : List (Str × FrameExitReason) :=
  [("revert".data, .revert),
   ("out of gas".data, .outOfGas),
   ("stack underflow".data, .stackUnderflow),
   ("stack overflow".data, .stackOverflow),
   ("invalid jump".data, .invalidJump),
   ("static".data, .writeProtection)]

/-- Specification-side exception mapping: lowercase the message and return
the reason of the first keyword (in the fixed order) occurring in it, else
invalid. -/
def firstMatchingReason (msg : Str) : FrameExitReason :=
  match exitReasonKeywords.find? (fun kw => isSubstr kw.1 (toLowerStr msg)) with
  | some kw => kw.2
  | none => .invalid

/-! Basic lemmas about the hex primitives. -/

theorem hexVal_hexDigitChar : ∀ d, d < 16 → hexVal (hexDigitChar d) = d := by decide

theorem isLowerHexChar_hexDigitChar : ∀ d, d < 16 → isLowerHexChar (hexDigitChar d) = true := by
  decide

theorem parseHexNat_acc (s : Str) :
    ∀ acc, List.foldl (fun acc c => acc * 16 + hexVal c) acc s
      = acc * 16 ^ s.length + parseHexNat s := by
  induction s with
  | nil => intro acc; simp [parseHexNat]
  | cons c rest ih =>
    intro acc
    simp only [List.foldl_cons, List.length_cons, parseHexNat]
    rw [ih (acc * 16 + hexVal c), ih (0 * 16 + hexVal c)]
    ring

theorem parseHexNat_append (a b : Str) :
    parseHexNat (a ++ b) = parseHexNat a * 16 ^ b.length + parseHexNat b := by
  simp only [parseHexNat, List.foldl_append]
  exact parseHexNat_acc b (List.foldl (fun acc c => acc * 16 + hexVal c) 0 a)

theorem parseHexNat_snoc (a : Str) (c : Char) :
    parseHexNat (a ++ [c]) = parseHexNat a * 16 + hexVal c := by
  rw [parseHexNat_append]
  simp [parseHexNat]

theorem natToHexAux_parse : ∀ fuel n, n ≤ fuel →
    parseHexNat (natToHexAux fuel n) = n := by
  intro fuel
  induction fuel with
  | zero =>
    intro n hn
    interval_cases n
    simp [natToHexAux, parseHexNat]
  | succ fuel ih =>
    intro n hn
    by_cases h0 : n = 0
    · simp [natToHexAux, h0, parseHexNat]
    · rw [natToHexAux, if_neg h0, parseHexNat_snoc,
        ih (n / 16) (by omega), hexVal_hexDigitChar (n % 16) (by omega)]
      omega

theorem parseHexNat_natToHex (n : Nat) : parseHexNat (natToHex n) = n := by
  by_cases h0 : n = 0
  · subst h0; decide
  · rw [natToHex, if_neg h0]
    exact natToHexAux_parse n n le_rfl

theorem natToHexAux_length : ∀ fuel n k, n ≤ fuel → n < 16 ^ k →
    (natToHexAux fuel n).length ≤ k := by
  intro fuel
  induction fuel with
  | zero =>
    intro n k hn _
    interval_cases n
    simp [natToHexAux]
  | succ fuel ih =>
    intro n k hn hk
    by_cases h0 : n = 0
    · simp [natToHexAux, h0]
    · rw [natToHexAux, if_neg h0]
      have hk1 : 0 < k := by
        by_contra hc
        have : k = 0 := by omega
        subst this
        simp at hk
        omega
      have hdiv : n / 16 < 16 ^ (k - 1) := by
        have h16 : 16 ^ k = 16 ^ (k - 1) * 16 := by
          conv_lhs => rw [show k = (k - 1) + 1 by omega]
          rw [pow_succ]
        apply Nat.div_lt_of_lt_mul
        omega
      have := ih (n / 16) (k - 1) (by omega) hdiv
      simp only [List.length_append, List.length_cons, List.length_nil]
      omega

theorem natToHex_length_le (n k : Nat) (hk : 0 < k) (hn : n < 16 ^ k) :
    (natToHex n).length ≤ k := by
  by_cases h0 : n = 0
  · subst h0; simp [natToHex]; omega
  · rw [natToHex, if_neg h0]
    exact natToHexAux_length n n k le_rfl hn

theorem natToHexAux_chars : ∀ fuel n c, c ∈ natToHexAux fuel n →
    isLowerHexChar c = true := by
  intro fuel
  induction fuel with
  | zero => intro n c hc; simp [natToHexAux] at hc
  | succ fuel ih =>
    intro n c hc
    by_cases h0 : n = 0
    · simp [natToHexAux, h0] at hc
    · rw [natToHexAux, if_neg h0] at hc
      rcases List.mem_append.mp hc with h | h
      · exact ih _ c h
      · simp at h
        subst h
        exact isLowerHexChar_hexDigitChar (n % 16) (by omega)

theorem natToHex_chars (n : Nat) (c : Char) (hc : c ∈ natToHex n) :
    isLowerHexChar c = true := by
  by_cases h0 : n = 0
  · subst h0
    simp [natToHex] at hc
    subst hc; decide
  · rw [natToHex, if_neg h0] at hc
    exact natToHexAux_chars n n c hc

theorem parseHexNat_replicate_zero (k : Nat) (s : Str) :
    parseHexNat (List.replicate k '0' ++ s) = parseHexNat s := by
  induction k with
  | zero => simp
  | succ k ih =>
    rw [List.replicate_succ, List.cons_append]
    simp only [parseHexNat, List.foldl_cons] at ih ⊢
    have : (0 * 16 + hexVal '0') = 0 := by decide
    rw [this]
    exact ih

theorem parseHexNat_padStart (s : Str) (k : Nat) :
    parseHexNat (padStart s k '0') = parseHexNat s :=
  parseHexNat_replicate_zero (k - s.length) s

theorem padStart_length (s : Str) (k : Nat) (c : Char) :
    (padStart s k c).length = max k s.length := by
  simp [padStart]
  omega

theorem padStart_chars (s : Str) (k : Nat) (c : Char) (d : Char)
    (hd : d ∈ padStart s k c) : d = c ∨ d ∈ s := by
  rcases List.mem_append.mp hd with h | h
  · exact Or.inl (List.eq_of_mem_replicate h)
  · exact Or.inr h

theorem byteHex_length (b : Nat) (hb : b < 256) : (byteHex b).length = 2 := by
  rw [byteHex, padStart_length]
  have := natToHex_length_le b 2 (by omega) (by omega)
  omega

theorem parseHexNat_byteHex (b : Nat) : parseHexNat (byteHex b) = b := by
  rw [byteHex, parseHexNat_padStart, parseHexNat_natToHex]

theorem byteHex_chars (b : Nat) (c : Char) (hc : c ∈ byteHex b) :
    isLowerHexChar c = true := by
  rcases padStart_chars _ _ _ _ hc with h | h
  · subst h; decide
  · exact natToHex_chars b c h

theorem bytesToHex_nil : bytesToHex [] = [] := rfl

theorem bytesToHex_cons (b : Nat) (bs : List Nat) :
    bytesToHex (b :: bs) = byteHex b ++ bytesToHex bs := by
  simp [bytesToHex]

theorem bytesToHex_append (a b : List Nat) :
    bytesToHex (a ++ b) = bytesToHex a ++ bytesToHex b := by
  simp [bytesToHex]

theorem bytesToHex_length (bs : List Nat) (h : ∀ b ∈ bs, b < 256) :
    (bytesToHex bs).length = 2 * bs.length := by
  induction bs with
  | nil => simp [bytesToHex]
  | cons b rest ih =>
    rw [bytesToHex_cons]
    simp only [List.length_append, List.length_cons]
    rw [byteHex_length b (h b (by simp)), ih (fun x hx => h x (by simp [hx]))]
    ring

theorem bytesToHex_chars (bs : List Nat) (c : Char) (hc : c ∈ bytesToHex bs) :
    isLowerHexChar c = true := by
  induction bs with
  | nil => simp [bytesToHex] at hc
  | cons b rest ih =>
    rw [bytesToHex_cons] at hc
    rcases List.mem_append.mp hc with h | h
    · exact byteHex_chars b c h
    · exact ih h

/-! Character case lemmas. -/

theorem charOfNat_toNat (n : Nat) (h : n.isValidChar) : (Char.ofNat n).toNat = n := by
  unfold Char.ofNat
  rw [dif_pos h]
  unfold Char.ofNatAux
  simp [Char.toNat, UInt32.toNat]

theorem char_eq_of_toNat_eq (a b : Char) (h : a.toNat = b.toNat) : a = b :=
  Char.ext (UInt32.ext h)

theorem char_le_iff (a b : Char) : a ≤ b ↔ a.toNat ≤ b.toNat := by
  rw [Char.le_def]
  rfl

theorem toLowerChar_toUpperChar (c : Char) :
    toLowerChar (toUpperChar c) = toLowerChar c := by
  unfold toUpperChar
  by_cases h : 'a' ≤ c ∧ c ≤ 'z'
  · rw [if_pos h]
    have h1 : 97 ≤ c.toNat := (char_le_iff 'a' c).mp h.1
    have h2 : c.toNat ≤ 122 := (char_le_iff c 'z').mp h.2
    have hvalid : (c.toNat - 32).isValidChar := Or.inl (by omega)
    have hu : (Char.ofNat (c.toNat - 32)).toNat = c.toNat - 32 :=
      charOfNat_toNat _ hvalid
    have hA : ('A').toNat = 65 := rfl
    have hZ : ('Z').toNat = 90 := rfl
    unfold toLowerChar
    rw [if_pos ⟨(char_le_iff _ _).mpr (by rw [hu, hA]; omega),
               (char_le_iff _ _).mpr (by rw [hu, hZ]; omega)⟩,
        if_neg (by
          intro hc
          have := (char_le_iff c 'Z').mp hc.2
          rw [hZ] at this
          omega)]
    apply char_eq_of_toNat_eq
    rw [charOfNat_toNat _ (Or.inl (by omega)), hu]
    omega
  · rw [if_neg h]

theorem toLowerStr_toUpperStr (s : Str) : toLowerStr (toUpperStr s) = toLowerStr s := by
  simp only [toLowerStr, toUpperStr, List.map_map]
  apply List.map_congr_left
  intro c _
  exact toLowerChar_toUpperChar c

/-! Claim C2: breakpoint API. -/

/-- C2 counterexample: the claim says addBreakpoint returns a Breakpoint and
does not fail, but the source throws its not-yet-implemented error on every
condition; moreover on a two-entry session whose second entry matches the
requested breakpoint, continueForward neither moves the cursor nor reports
a hit. -/
theorem C2_counterexample :
    DebugSession.addBreakpoint
        { pc := some 0, opcode := none, storageSlot := none, globalStepIndex := none }
      = .error "addBreakpoint() not yet implemented".data := by
  rfl

/-- C2 (amended): addBreakpoint fails with its not-yet-implemented error for
every condition; removeBreakpoint is a no-op; getBreakpoints is empty; and
continueForward / continueBackward perform no scan: they leave the session
unchanged and return false (no breakpoint hit). -/
theorem C2_breakpoints_unimplemented :
    ∀ (c : DebugSession.BreakpointCondition) (s : DebugSession) (id : Str),
      DebugSession.addBreakpoint c
          = .error "addBreakpoint() not yet implemented".data ∧
      s.removeBreakpoint id = s ∧
      s.getBreakpoints = [] ∧
      s.continueForward = (s, false) ∧
      s.continueBackward = (s, false) := by
  intro c s id
  exact ⟨rfl, rfl, rfl, rfl, rfl⟩

/-! Claim C6: exception-to-exit-reason mapping. -/

/-- C6: the code mapping agrees with the specification-side first-match
lookup over the ordered keyword list (so a message containing several
keywords maps to the first match in the fixed order, and a message
containing none maps to invalid), and the mapping is insensitive to the
case of its input. -/
theorem C6_exception_mapping :
    ∀ msg : Str,
      mapExceptionToReason msg = firstMatchingReason msg ∧
      mapExceptionToReason (toUpperStr msg) = mapExceptionToReason msg := by
  intro msg
  constructor
  · unfold mapExceptionToReason firstMatchingReason exitReasonKeywords
    by_cases h1 : isSubstr "revert".data (toLowerStr msg) <;>
      by_cases h2 : isSubstr "out of gas".data (toLowerStr msg) <;>
      by_cases h3 : isSubstr "stack underflow".data (toLowerStr msg) <;>
      by_cases h4 : isSubstr "stack overflow".data (toLowerStr msg) <;>
      by_cases h5 : isSubstr "invalid jump".data (toLowerStr msg) <;>
      by_cases h6 : isSubstr "static".data (toLowerStr msg) <;>
      simp [List.find?, h1, h2, h3, h4, h5, h6]
  · unfold mapExceptionToReason
    rw [toLowerStr_toUpperStr]

/-! Claim C9: cursor bounds and idempotence. -/

/-- C9: jumpTo clamps the cursor into [0, length - 1] (it is the identity on
in-range indices and moves out-of-range indices to the nearer bound), a
second jumpTo with the same argument changes nothing, and stepBackward at
index 0 as well as stepForward at the last index leave the session
unchanged. -/
theorem C9_cursor_bounds_and_idempotence :
    ∀ (s : DebugSession) (i : Int), 0 < s.flatSteps.length →
      ((s.jumpTo i).globalStepIndex < s.flatSteps.length ∧
       (i < 0 → (s.jumpTo i).globalStepIndex = 0) ∧
       (0 ≤ i → i ≤ (s.flatSteps.length : Int) - 1 →
          ((s.jumpTo i).globalStepIndex : Int) = i) ∧
       ((s.flatSteps.length : Int) - 1 < i →
          (s.jumpTo i).globalStepIndex = s.flatSteps.length - 1) ∧
       (s.jumpTo i).jumpTo i = s.jumpTo i) ∧
      (s.globalStepIndex = 0 → s.stepBackward = s) ∧
      (s.globalStepIndex = s.flatSteps.length - 1 → s.stepForward = s) := by
  intro s i hlen
  refine ⟨⟨?_, ?_, ?_, ?_, ?_⟩, ?_, ?_⟩
  · simp only [DebugSession.jumpTo]
    omega
  · intro hi
    simp only [DebugSession.jumpTo]
    omega
  · intro h0 h1
    simp only [DebugSession.jumpTo]
    omega
  · intro hi
    simp only [DebugSession.jumpTo]
    omega
  · simp only [DebugSession.jumpTo]
  · intro h0
    simp only [DebugSession.stepBackward, h0]
    rw [if_neg (by omega)]
  · intro hlast
    simp only [DebugSession.stepForward]
    rw [if_neg (by omega)]

/-! Claim C3: terminal-opcode normalization. -/

theorem not_0x_prefixOf_hex (H : Str)
    (hh : ∀ c ∈ H, isLowerHexChar c = true) :
    ['0', 'x'].isPrefixOf H = false := by
  match H with
  | [] => rfl
  | [c1] => simp [List.isPrefixOf]
  | c1 :: c2 :: t2 =>
    have h2 : isLowerHexChar c2 = true := hh c2 (by simp)
    have hx : c2 ≠ 'x' := by
      intro e
      subst e
      exact absurd h2 (by decide)
    simp [List.isPrefixOf]
    intro _
    exact fun e => absurd e.symm hx

/-- Core case analysis of ensureTerminalOpcode once the prefix-stripped hex
is known to encode the byte list bytes. -/
theorem ensureTerminal_cases (bc : Str) (bytes : List Nat)
    (hb : ∀ b ∈ bytes, b < 256)
    (hhex : (if ['0', 'x'].isPrefixOf bc then bc.drop 2 else bc) = bytesToHex bytes) :
    (bytes = [] → ensureTerminalOpcode bc = (bc ++ ['0', '0'], true)) ∧
    (∀ b, bytes.getLast? = some b →
      (TERMINAL_OPCODES.contains b = true → ensureTerminalOpcode bc = (bc, false)) ∧
      (TERMINAL_OPCODES.contains b = false →
        ensureTerminalOpcode bc = (bc ++ ['0', '0'], true))) := by
  constructor
  · intro hempty
    subst hempty
    unfold ensureTerminalOpcode
    rw [hhex]
    rw [if_pos (by simp [bytesToHex])]
  · intro b hlast
    obtain ⟨init, rfl⟩ : ∃ init, bytes = init ++ [b] := by
      rcases List.getLast?_eq_some_iff.mp hlast with ⟨l, hl⟩
      exact ⟨l, hl⟩
    have hbinit : ∀ x ∈ init, x < 256 := fun x hx => hb x (by simp [hx])
    have hb256 : b < 256 := hb b (by simp)
    have hlen : (bytesToHex (init ++ [b])).length = 2 * init.length + 2 := by
      rw [bytesToHex_length _ hb]
      simp
      ring
    have hsplit : bytesToHex (init ++ [b]) = bytesToHex init ++ byteHex b :=
      by rw [bytesToHex_append, bytesToHex_cons, bytesToHex_nil, List.append_nil]
    have hlenInit : (bytesToHex init).length = 2 * init.length :=
      bytesToHex_length _ hbinit
    have hlast2 :
        (bytesToHex (init ++ [b])).drop ((bytesToHex (init ++ [b])).length - 2)
          = byteHex b := by
      rw [hsplit]
      have hl2 : (bytesToHex init ++ byteHex b).length - 2 = (bytesToHex init).length := by
        simp [byteHex_length b hb256]
      rw [hl2, List.drop_left]
    unfold ensureTerminalOpcode
    rw [hhex]
    rw [if_neg (by omega), hlast2, parseHexNat_byteHex]
    constructor
    · intro hterm
      show (if TERMINAL_OPCODES.contains b = true then (bc, false)
            else (bc ++ ['0', '0'], true)) = (bc, false)
      rw [if_pos hterm]
    · intro hterm
      show (if TERMINAL_OPCODES.contains b = true then (bc, false)
            else (bc ++ ['0', '0'], true)) = (bc ++ ['0', '0'], true)
      rw [hterm]
      simp

/-- C3: ensureTerminalOpcode leaves a bytecode (with or without its 0x
prefix) unchanged with appendedStop false exactly when the final byte is a
terminal opcode; otherwise — including empty bytecode — it appends a STOP
byte and sets the flag; and the execute post-processing removes the last
root step exactly when the flag is set and that step is a STOP. -/
theorem C3_terminal_normalization :
    (∀ (pre : Bool) (bytes : List Nat), (∀ b ∈ bytes, b < 256) →
      ∀ bc, bc = (if pre then ['0', 'x'] else []) ++ bytesToHex bytes →
        (bytes = [] → ensureTerminalOpcode bc = (bc ++ ['0', '0'], true)) ∧
        (∀ b, bytes.getLast? = some b →
          (TERMINAL_OPCODES.contains b = true →
            ensureTerminalOpcode bc = (bc, false)) ∧
          (TERMINAL_OPCODES.contains b = false →
            ensureTerminalOpcode bc = (bc ++ ['0', '0'], true)))) ∧
    (∀ (appendedStop : Bool) (root : Frame),
      (appendedStop = true → ∀ st, root.steps.getLast? = some st → st.opcode = 0 →
        stripSyntheticStop appendedStop root = root.withSteps root.steps.dropLast) ∧
      (appendedStop = false → stripSyntheticStop appendedStop root = root) ∧
      (∀ st, root.steps.getLast? = some st → st.opcode ≠ 0 →
        stripSyntheticStop appendedStop root = root) ∧
      (root.steps = [] → stripSyntheticStop appendedStop root = root)) := by
  constructor
  · intro pre bytes hb bc hbc
    apply ensureTerminal_cases bc bytes hb
    cases pre
    · simp only [Bool.false_eq_true, if_false, List.nil_append] at hbc
      subst hbc
      rw [if_neg (by rw [not_0x_prefixOf_hex _ (bytesToHex_chars bytes)]; simp)]
    · simp only [if_true] at hbc
      subst hbc
      rw [if_pos (by simp [List.isPrefixOf])]
      simp
  · intro appendedStop root
    refine ⟨?_, ?_, ?_, ?_⟩
    · intro hset st hlast hstop
      have hne : root.steps ≠ [] := by
        intro h
        rw [h] at hlast
        simp at hlast
      unfold stripSyntheticStop
      rw [if_pos ⟨hset, by
        have := List.length_pos.mpr hne
        omega⟩, hlast]
      simp [hstop]
    · intro hunset
      unfold stripSyntheticStop
      rw [if_neg (by simp [hunset])]
    · intro st hlast hstop
      unfold stripSyntheticStop
      by_cases hcond : appendedStop = true ∧ root.steps.length > 0
      · rw [if_pos hcond, hlast]
        simp [hstop]
      · rw [if_neg hcond]
    · intro hempty
      unfold stripSyntheticStop
      rw [if_neg (by simp [hempty])]

/-! Concrete fixtures used by witness theorems. -/

/-- Minimal step with a given opcode, for concrete traces. -/
def sampleStep (opc : Nat) : Step :=
  { pc := 0, opcode := opc, mnemonic := [], gasRemaining := 0, gasCost := 0,
    stack := [], memory := { current := [], expandedSize := none },
    storageChanges := [], transientStorageChanges := [], depth := 0,
    storage := none, stackAfter := none, memoryAfter := none }

def sampleResult : FrameResult :=
  { exitReason := .success, returnData := [], gasUsed := 0, deployedAddress := none }

/-- Child frame with a single STOP step. -/
def sampleChild : Frame :=
  .mk "frame-0".data .CALL [] [] [] 0 [] 0 [sampleStep 0x00] [] sampleResult

/-- Root frame: PUSH1, CALL (spawning the child), STOP. -/
def sampleRoot : Frame :=
  .mk "root".data .ROOT [] [] [] 0 [] 0
    [sampleStep 0x60, sampleStep 0xf1, sampleStep 0x00]
    [(1, sampleChild)] sampleResult

def sampleTrace : Trace :=
  { root := sampleRoot,
    metadata := { mode := .call, deployedAddress := none, success := true,
                  returnData := [], gasUsed := 0 } }

def sampleSession : DebugSession := DebugSession.new sampleTrace

/-- C9 witness: on a concrete six-entry session, jumping to the out-of-range
index 10 clamps into bounds and a second identical jump changes nothing. -/
theorem C9_witness :
    0 < sampleSession.flatSteps.length ∧
    (sampleSession.jumpTo 10).globalStepIndex < sampleSession.flatSteps.length ∧
    (sampleSession.jumpTo 10).jumpTo 10 = sampleSession.jumpTo 10 := by
  have h := C9_cursor_bounds_and_idempotence sampleSession 10 (by decide)
  exact ⟨by decide, h.1.1, h.1.2.2.2.2⟩

/-- C3 witness: concrete bytecode 0x6042 does not end in a terminal opcode,
so a STOP byte is appended and the flag set; and the strip post-processing
removes a trailing STOP step from a concrete root frame when the flag was
set. -/
theorem C3_witness :
    ensureTerminalOpcode ("0x6042".data) = ("0x604200".data, true) ∧
    stripSyntheticStop true sampleChild
      = sampleChild.withSteps (sampleChild.steps.dropLast) := by
  constructor
  · have h := ((C3_terminal_normalization.1 true [0x60, 0x42] (by decide)
      ("0x6042".data) (by decide)).2 0x42 (by decide)).2 (by decide)
    have he : "0x6042".data ++ ['0', '0'] = "0x604200".data := by decide
    rw [he] at h
    exact h
  · exact (C3_terminal_normalization.2 true sampleChild).1 rfl
      (sampleStep 0x00) (by decide) rfl

/-! Claim C4: stepOver semantics. -/

/-- Stop condition of the stepOver scan at flat index k: the entry there is
in the remembered frame (same identifying path) with a different step index
(the frame-end marker of that frame counts, its stepIndex being -1). -/
def stepOverHit (flats : List FlatStep) (curPath : List Nat) (curIdx : Int)
    (k : Nat) : Prop :=
  ∃ fl, flats.get? k = some fl ∧ fl.framePath = curPath ∧ fl.stepIndex ≠ curIdx

theorem stepOverLoop_spec (flats : List FlatStep) (curPath : List Nat) (curIdx : Int) :
    ∀ fuel idx, flats.length - idx ≤ fuel → idx < flats.length →
      idx ≤ DebugSession.stepOverLoop flats curPath curIdx idx ∧
      DebugSession.stepOverLoop flats curPath curIdx idx < flats.length ∧
      (stepOverHit flats curPath curIdx (DebugSession.stepOverLoop flats curPath curIdx idx) ∨
        DebugSession.stepOverLoop flats curPath curIdx idx = flats.length - 1) ∧
      (∀ k, idx < k → k < DebugSession.stepOverLoop flats curPath curIdx idx →
        ¬ stepOverHit flats curPath curIdx k) := by
  intro fuel
  induction fuel with
  | zero => intro idx h1 h2; omega
  | succ fuel ih =>
    intro idx hfuel hidx
    by_cases hlt : idx < flats.length - 1
    · have hget : ∃ fl, flats.get? (idx + 1) = some fl := by
        rw [List.get?_eq_get (by omega)]
        exact ⟨_, rfl⟩
      obtain ⟨fl, hfl⟩ := hget
      have heq : DebugSession.stepOverLoop flats curPath curIdx idx =
          if fl.framePath = curPath ∧ fl.stepIndex ≠ curIdx then idx + 1
          else DebugSession.stepOverLoop flats curPath curIdx (idx + 1) := by
        rw [DebugSession.stepOverLoop]
        rw [if_pos hlt]
        simp only [hfl]
      by_cases hstop : fl.framePath = curPath ∧ fl.stepIndex ≠ curIdx
      · rw [heq, if_pos hstop]
        refine ⟨by omega, by omega, Or.inl ⟨fl, hfl, hstop⟩, ?_⟩
        intro k hk1 hk2
        omega
      · rw [heq, if_neg hstop]
        obtain ⟨ha, hb, hc, hd⟩ := ih (idx + 1) (by omega) (by omega)
        refine ⟨by omega, hb, hc, ?_⟩
        intro k hk1 hk2
        by_cases hk : k = idx + 1
        · subst hk
          rintro ⟨fl2, hfl2, h2⟩
          rw [hfl] at hfl2
          injection hfl2 with e
          subst e
          exact hstop h2
        · exact hd k (by omega) hk2
    · have heq : DebugSession.stepOverLoop flats curPath curIdx idx = idx := by
        rw [DebugSession.stepOverLoop, if_neg hlt]
      rw [heq]
      exact ⟨le_rfl, hidx, Or.inr (by omega), fun k h1 h2 => by omega⟩

/-- Bound for the stepOut scan, needed for cursor safety. -/
theorem stepOutLoop_bound (flats : List FlatStep) (depth : Nat) :
    ∀ fuel idx, flats.length - idx ≤ fuel → idx < flats.length →
      DebugSession.stepOutLoop flats depth idx < flats.length := by
  intro fuel
  induction fuel with
  | zero => intro idx h1 h2; omega
  | succ fuel ih =>
    intro idx hfuel hidx
    by_cases hlt : idx < flats.length - 1
    · have h2 : DebugSession.stepOutLoop flats depth idx =
          match flats.get? (idx + 1) with
          | some fl =>
            if fl.callStack.length < depth then idx + 1
            else DebugSession.stepOutLoop flats depth (idx + 1)
          | none => idx + 1 := by
        rw [DebugSession.stepOutLoop, if_pos hlt]
      rw [h2]
      cases hget : flats.get? (idx + 1) with
      | none => simp only [hget]; exact Nat.add_lt_of_lt_sub hlt
      | some fl =>
        simp only [hget]
        by_cases hc : fl.callStack.length < depth
        · rw [if_pos hc]; exact Nat.add_lt_of_lt_sub hlt
        · rw [if_neg hc]
          exact ih (idx + 1) (by omega) (by omega)
    · rw [DebugSession.stepOutLoop, if_neg hlt]
      exact hidx

/-- C4: canStepOver holds exactly when the current step exists and carries a
frame-creating opcode; when it does not hold stepOver is stepForward; and
when it holds, stepOver moves the cursor to the first later index whose
entry is back in the remembered frame with a different step index — its
frame-end marker counts — or to the last flat index when no such entry
exists, skipping everything in between. -/
theorem C4_stepOver :
    ∀ s : DebugSession, s.globalStepIndex < s.flatSteps.length →
      (s.canStepOver = true ↔
        ∃ st, s.currentStep = some st ∧ st.opcode ∈ FRAME_CREATING_OPCODES) ∧
      (s.canStepOver = false → s.stepOver = s.stepForward) ∧
      (s.canStepOver = true →
        ∀ cur, s.currentFlat = some cur →
          s.stepOver.flatSteps = s.flatSteps ∧
          s.globalStepIndex ≤ s.stepOver.globalStepIndex ∧
          s.stepOver.globalStepIndex < s.flatSteps.length ∧
          (stepOverHit s.flatSteps cur.framePath cur.stepIndex
              s.stepOver.globalStepIndex ∨
            s.stepOver.globalStepIndex = s.flatSteps.length - 1) ∧
          (∀ k, s.globalStepIndex < k → k < s.stepOver.globalStepIndex →
            ¬ stepOverHit s.flatSteps cur.framePath cur.stepIndex k)) := by
  intro s hvalid
  refine ⟨?_, ?_, ?_⟩
  · unfold DebugSession.canStepOver
    cases hcs : s.currentStep with
    | none => simp
    | some st =>
      simp only []
      constructor
      · intro h
        exact ⟨st, rfl, by
          have := List.mem_of_elem_eq_true h
          exact this⟩
      · rintro ⟨st2, hst2, hmem⟩
        injection hst2 with e
        subst e
        exact List.elem_eq_true_of_mem hmem
  · intro hno
    unfold DebugSession.canStepOver at hno
    unfold DebugSession.stepOver
    cases hcs : s.currentStep with
    | none => simp only []
    | some st =>
      rw [hcs] at hno
      simp only [] at hno
      simp only []
      rw [if_neg (by
        intro hcontains
        rw [hno] at hcontains
        exact Bool.false_ne_true hcontains)]
  · intro hyes cur hcur
    unfold DebugSession.canStepOver at hyes
    cases hcs : s.currentStep with
    | none => rw [hcs] at hyes; simp at hyes
    | some st =>
      rw [hcs] at hyes
      simp only [] at hyes
      unfold DebugSession.stepOver
      rw [hcs]
      simp only [hyes, if_true, hcur]
      have hspec := stepOverLoop_spec s.flatSteps cur.framePath cur.stepIndex
        (s.flatSteps.length - s.globalStepIndex) s.globalStepIndex le_rfl hvalid
      exact ⟨trivial, hspec.1, hspec.2.1, hspec.2.2.1, hspec.2.2.2⟩

/-- C4 witness: on the concrete session positioned at its CALL step, the
cursor is valid, canStepOver holds, and stepOver lands at flat index 4 —
the entry after the child sub-trace — which is the first later hit. -/
theorem C4_witness :
    (sampleSession.jumpTo 1).globalStepIndex
        < (sampleSession.jumpTo 1).flatSteps.length ∧
    (sampleSession.jumpTo 1).canStepOver = true ∧
    stepOverHit (sampleSession.jumpTo 1).flatSteps [] 1
      (sampleSession.jumpTo 1).stepOver.globalStepIndex := by
  have h := C4_stepOver (sampleSession.jumpTo 1) (by decide)
  have h3 := h.2.2 (by decide)
    { frame := sampleRoot, framePath := [], stepIndex := 1,
      callStack := [sampleRoot], isFrameEnd := false } rfl
  refine ⟨by decide, by decide, ?_⟩
  rcases h3.2.2.2.1 with hhit | hlast
  · exact hhit
  · exact ⟨{ frame := sampleRoot, framePath := [], stepIndex := -1,
             callStack := [sampleRoot], isFrameEnd := true },
           by rw [hlast]; rfl, rfl, by decide⟩

theorem mem_of_mem_takeWhile {α : Type} (p : α → Bool) :
    ∀ (l : List α) (x : α), x ∈ l.takeWhile p → x ∈ l := by
  intro l
  induction l with
  | nil => intro x h; simp [List.takeWhile] at h
  | cons a t ih =>
    intro x h
    rw [List.takeWhile_cons] at h
    by_cases hp : p a
    · rw [if_pos hp] at h
      rcases List.mem_cons.mp h with h | h
      · exact h ▸ List.mem_cons_self a t
      · exact List.mem_cons_of_mem a (ih x h)
    · rw [if_neg hp] at h
      simp at h

theorem mem_of_mem_dropWhile {α : Type} (p : α → Bool) :
    ∀ (l : List α) (x : α), x ∈ l.dropWhile p → x ∈ l := by
  intro l
  induction l with
  | nil => intro x h; simp [List.dropWhile] at h
  | cons a t ih =>
    intro x h
    rw [List.dropWhile_cons] at h
    by_cases hp : p a
    · rw [if_pos hp] at h
      exact List.mem_cons_of_mem a (ih x h)
    · rw [if_neg hp] at h
      exact h


/-! Claim C5: flattening size invariant. -/

/-- Sortedness (non-decreasing) of a list of integers, used for the
specification invariant that children are sorted by stepIndex. -/
def sortedInts : List Int → Bool
  | [] => true
  | [_] => true
  | x :: y :: rest => decide (x ≤ y) && sortedInts (y :: rest)

mutual
/-- Specification invariant on a frame tree: in every frame, the children
list is sorted non-decreasingly by stepIndex and every child stepIndex lies
within the bounds of the steps of its parent. -/
def goodFrameB : Frame → Bool
  | .mk _ _ _ _ _ _ _ _ steps children _ =>
    sortedInts (children.map Prod.fst)
      && (children.map Prod.fst).all
           (fun x => decide (0 ≤ x ∧ x < (steps.length : Int)))
      && goodChildren children

def goodChildren : List (Int × Frame) → Bool
  | [] => true
  | c :: cs => goodFrameB c.2 && goodChildren cs
end

mutual
/-- Expected number of flattened entries: one per step plus one frame-end
marker per frame, over the whole tree. -/
def totalEntries : Frame → Nat
  | .mk _ _ _ _ _ _ _ _ steps children _ =>
    steps.length + 1 + totalEntriesChildren children

def totalEntriesChildren : List (Int × Frame) → Nat
  | [] => 0
  | c :: cs => totalEntries c.2 + totalEntriesChildren cs
end

mutual
/-- Number of frames in the tree. -/
def frameCount : Frame → Nat
  | .mk _ _ _ _ _ _ _ _ _ children _ => 1 + frameCountChildren children

def frameCountChildren : List (Int × Frame) → Nat
  | [] => 0
  | c :: cs => frameCount c.2 + frameCountChildren cs
end

theorem sortedInts_cons : ∀ (rest : List Int) (x : Int),
    sortedInts (x :: rest) = true → sortedInts rest = true ∧ ∀ y ∈ rest, x ≤ y := by
  intro rest
  induction rest with
  | nil => intro x _; exact ⟨rfl, by simp⟩
  | cons y rest2 ih =>
    intro x hs
    rw [sortedInts] at hs
    rw [Bool.and_eq_true] at hs
    obtain ⟨hxy, hrest⟩ := hs
    have hxy2 : x ≤ y := of_decide_eq_true hxy
    obtain ⟨h1, h2⟩ := ih y hrest
    refine ⟨hrest, ?_⟩
    intro z hz
    rcases List.mem_cons.mp hz with hz | hz
    · exact hz ▸ hxy2
    · exact le_trans hxy2 (h2 z hz)

theorem sortedInts_append_right : ∀ (a b : List Int),
    sortedInts (a ++ b) = true → sortedInts b = true := by
  intro a
  induction a with
  | nil => intro b h; exact h
  | cons x a2 ih =>
    intro b h
    rw [List.cons_append] at h
    exact ih b (sortedInts_cons _ x h).1

theorem dropWhile_head_false {α : Type} (p : α → Bool) :
    ∀ (l : List α) (a : α) (as : List α), l.dropWhile p = a :: as → p a = false := by
  intro l
  induction l with
  | nil => intro a as h; simp [List.dropWhile] at h
  | cons x t ih =>
    intro a as h
    rw [List.dropWhile_cons] at h
    by_cases hp : p x
    · rw [if_pos hp] at h
      exact ih a as h
    · rw [if_neg hp] at h
      injection h with h1 _
      exact h1 ▸ (Bool.not_eq_true _).mp hp

/-- Combined properties of the visitLoop splice when the children to splice
are sorted by stepIndex and every stepIndex lies in the remaining step
range: the loop consumes every child, its length is the number of remaining
steps plus the sizes of all spliced children, it emits no frame-end marker
of its own, and each of its entries is either a step entry of this frame or
belongs to one of the spliced children. -/
theorem visitLoop_props (f : Frame) (path : List Nat) (cs : List Frame) :
    ∀ (steps : List Step) (iNat : Nat) (children : List (Int × List FlatStep)),
      sortedInts (children.map Prod.fst) = true →
      (∀ x ∈ children.map Prod.fst,
        (iNat : Int) ≤ x ∧ x < ((iNat + steps.length : Nat) : Int)) →
      (visitLoop f path cs steps (iNat : Int) children).length
          = steps.length + (children.map (fun pr => pr.2.length)).sum ∧
      (visitLoop f path cs steps (iNat : Int) children).countP
            (fun fl => fl.isFrameEnd)
          = (children.map (fun pr => pr.2.countP (fun fl => fl.isFrameEnd))).sum ∧
      (∀ fl ∈ visitLoop f path cs steps (iNat : Int) children,
        (fl.framePath = path ∧ fl.isFrameEnd = false) ∨ ∃ pr ∈ children, fl ∈ pr.2) := by
  intro steps
  induction steps with
  | nil =>
    intro iNat children hsorted hrange
    have hempty : children = [] := by
      cases children with
      | nil => rfl
      | cons c cs2 =>
        exfalso
        have := hrange c.1 (by simp)
        simp at this
        omega
    subst hempty
    refine ⟨by simp [visitLoop], by simp [visitLoop], ?_⟩
    intro fl hfl
    simp [visitLoop] at hfl
  | cons s rest ih =>
    intro iNat children hsorted hrange
    have hTD : children.takeWhile (fun c => c.1 == (iNat : Int))
        ++ children.dropWhile (fun c => c.1 == (iNat : Int)) = children :=
      List.takeWhile_append_dropWhile _ _
    set T := children.takeWhile (fun c => c.1 == (iNat : Int)) with hT
    set D := children.dropWhile (fun c => c.1 == (iNat : Int)) with hD
    have hmapTD : children.map Prod.fst = T.map Prod.fst ++ D.map Prod.fst := by
      rw [← List.map_append, hTD]
    have hsortedD : sortedInts (D.map Prod.fst) = true := by
      apply sortedInts_append_right (T.map Prod.fst)
      rw [← hmapTD]
      exact hsorted
    have hrangeD : ∀ x ∈ D.map Prod.fst,
        ((iNat + 1 : Nat) : Int) ≤ x
          ∧ x < (((iNat + 1) + rest.length : Nat) : Int) := by
      intro x hx
      have hupper : x < ((iNat + (s :: rest).length : Nat) : Int) := by
        have hxc : x ∈ children.map Prod.fst := by
          rw [List.mem_map] at hx
          obtain ⟨pr, hpr, rfl⟩ := hx
          exact List.mem_map_of_mem Prod.fst (mem_of_mem_dropWhile _ _ pr hpr)
        exact (hrange x hxc).2
      have hlower : ((iNat + 1 : Nat) : Int) ≤ x := by
        cases hDc : D with
        | nil => rw [hDc] at hx; simp at hx
        | cons d ds =>
          have hdne : d.1 ≠ (iNat : Int) := by
            have hh := dropWhile_head_false (fun c => c.1 == (iNat : Int))
              children d ds (by rw [← hD, hDc])
            simpa using hh
          have hdlo : (iNat : Int) ≤ d.1 := by
            have hdc : d.1 ∈ children.map Prod.fst := by
              apply List.mem_map_of_mem Prod.fst
              exact mem_of_mem_dropWhile _ _ d
                (by rw [← hD, hDc]; exact List.mem_cons_self d ds)
            exact (hrange d.1 hdc).1
          have hd1 : ((iNat + 1 : Nat) : Int) ≤ d.1 := by
            push_cast
            push_cast at hdlo
            omega
          rw [hDc] at hx
          rw [List.map_cons] at hx
          rcases List.mem_cons.mp hx with hx | hx
          · exact hx ▸ hd1
          · have hsD : sortedInts (d.1 :: ds.map Prod.fst) = true := by
              rw [hDc, List.map_cons] at hsortedD
              exact hsortedD
            have := (sortedInts_cons _ d.1 hsD).2 x hx
            omega
      constructor
      · exact hlower
      · push_cast at hupper ⊢
        simp only [List.length_cons] at hupper
        omega
    obtain ⟨ihl, ihc, ihm⟩ := ih (iNat + 1) D hsortedD hrangeD
    have hcast : ((iNat : Int) + 1) = (((iNat + 1 : Nat)) : Int) := by push_cast; ring
    have heq : visitLoop f path cs (s :: rest) (iNat : Int) children =
        { frame := f, framePath := path, stepIndex := (iNat : Int),
          callStack := cs, isFrameEnd := false }
          :: ((T.map Prod.snd).flatten
              ++ visitLoop f path cs rest (((iNat + 1 : Nat)) : Int) D) := by
      rw [visitLoop, ← hcast]
    have hsumsplit :
        (children.map (fun pr => pr.2.length)).sum
          = (T.map (fun pr => pr.2.length)).sum + (D.map (fun pr => pr.2.length)).sum := by
      conv_lhs => rw [← hTD]
      rw [List.map_append, List.sum_append]
    have hcsumsplit :
        (children.map (fun pr => pr.2.countP (fun fl => fl.isFrameEnd))).sum
          = (T.map (fun pr => pr.2.countP (fun fl => fl.isFrameEnd))).sum
            + (D.map (fun pr => pr.2.countP (fun fl => fl.isFrameEnd))).sum := by
      conv_lhs => rw [← hTD]
      rw [List.map_append, List.sum_append]
    have hflatlen : (T.map Prod.snd).flatten.length
        = (T.map (fun pr => pr.2.length)).sum := by
      rw [List.length_join, List.map_map]
      rfl
    have hflatcount : (T.map Prod.snd).flatten.countP (fun fl => fl.isFrameEnd)
        = (T.map (fun pr => pr.2.countP (fun fl => fl.isFrameEnd))).sum := by
      rw [List.countP_join, List.map_map]
      rfl
    refine ⟨?_, ?_, ?_⟩
    · rw [heq]
      simp only [List.length_cons, List.length_append]
      rw [hflatlen, ihl, hsumsplit]
      omega
    · rw [heq]
      rw [List.countP_cons, List.countP_append, hflatcount, ihc, hcsumsplit]
      have hproj : FlatStep.isFrameEnd
          ⟨f, path, (iNat : Int), cs, false⟩ = false := rfl
      rw [hproj]
      simp
    · intro fl hfl
      rw [heq] at hfl
      rcases List.mem_cons.mp hfl with hfl | hfl
      · subst hfl
        exact Or.inl ⟨rfl, rfl⟩
      · rcases List.mem_append.mp hfl with hfl | hfl
        · rw [List.mem_flatten] at hfl
          obtain ⟨l0, hl0, hfll⟩ := hfl
          rw [List.mem_map] at hl0
          obtain ⟨pr, hpr, rfl⟩ := hl0
          exact Or.inr ⟨pr, mem_of_mem_takeWhile _ _ pr hpr, hfll⟩
        · rcases ihm fl hfl with h | ⟨pr, hpr, hh⟩
          · exact Or.inl h
          · exact Or.inr ⟨pr, mem_of_mem_dropWhile _ _ pr hpr, hh⟩

/-- C5: for every frame tree whose children are sorted non-decreasingly by
stepIndex with every stepIndex within the bounds of its parent's steps,
flattening produces exactly the sum over all frames of (number of steps
plus one) entries, with exactly one frame-end marker per frame, each
frame's marker being the last entry of that frame's flattened segment —
after its last real step and after all its nested children. -/
theorem C5_flatten_size :
    ∀ f : Frame, goodFrameB f = true →
      ((flattenSteps f).length = totalEntries f ∧
       (flattenSteps f).countP (fun fl => fl.isFrameEnd) = frameCount f) ∧
      (∀ (path : List Nat) (stack : List Frame),
        (visit f path stack).length = totalEntries f ∧
        (visit f path stack).countP (fun fl => fl.isFrameEnd) = frameCount f ∧
        (∃ l, visit f path stack
            = l ++ [{ frame := f, framePath := path, stepIndex := -1,
                      callStack := stack ++ [f], isFrameEnd := true }] ∧
          ∀ fl ∈ l, fl.framePath = path → fl.isFrameEnd = false)) := by
  have main : ∀ (f : Frame) (path : List Nat) (stack : List Frame),
      goodFrameB f = true →
        (visit f path stack).length = totalEntries f ∧
        (visit f path stack).countP (fun fl => fl.isFrameEnd) = frameCount f ∧
        (∃ l, visit f path stack
            = l ++ [{ frame := f, framePath := path, stepIndex := -1,
                      callStack := stack ++ [f], isFrameEnd := true }] ∧
          ∀ fl ∈ l, fl.framePath = path → fl.isFrameEnd = false) ∧
        (∀ fl ∈ visit f path stack,
          fl.framePath = path ∨ path.length < fl.framePath.length) := by
    intro f path stack
    refine visit.induct
      (fun f path stack => goodFrameB f = true →
        (visit f path stack).length = totalEntries f ∧
        (visit f path stack).countP (fun fl => fl.isFrameEnd) = frameCount f ∧
        (∃ l, visit f path stack
            = l ++ [{ frame := f, framePath := path, stepIndex := -1,
                      callStack := stack ++ [f], isFrameEnd := true }] ∧
          ∀ fl ∈ l, fl.framePath = path → fl.isFrameEnd = false) ∧
        (∀ fl ∈ visit f path stack,
          fl.framePath = path ∨ path.length < fl.framePath.length))
      (fun path cs k children => goodChildren children = true →
        ((visitChildren path cs k children).map (fun pr => pr.2.length)).sum
            = totalEntriesChildren children ∧
        ((visitChildren path cs k children).map
            (fun pr => pr.2.countP (fun fl => fl.isFrameEnd))).sum
            = frameCountChildren children ∧
        (visitChildren path cs k children).map Prod.fst = children.map Prod.fst ∧
        (∀ pr ∈ visitChildren path cs k children, ∀ fl ∈ pr.2,
          path.length < fl.framePath.length))
      ?_ ?_ ?_ f path stack
    · intro path stack id ftype ca code input value caller gas steps children result
        hch hgood
      have hgood2 : (sortedInts (children.map Prod.fst)
          && (children.map Prod.fst).all
               (fun x => decide (0 ≤ x ∧ x < (steps.length : Int)))
          && goodChildren children) = true := hgood
      rw [Bool.and_eq_true, Bool.and_eq_true] at hgood2
      obtain ⟨⟨hsorted, hrangeB⟩, hgoodch⟩ := hgood2
      obtain ⟨hsum, hcsum, hfst, hpaths⟩ := hch hgoodch
      have hsorted2 : sortedInts ((visitChildren path
          (stack ++ [Frame.mk id ftype ca code input value caller gas steps children result])
          0 children).map Prod.fst) = true := by
        rw [hfst]; exact hsorted
      have hrange2 : ∀ x ∈ (visitChildren path
          (stack ++ [Frame.mk id ftype ca code input value caller gas steps children result])
          0 children).map Prod.fst,
          ((0 : Nat) : Int) ≤ x ∧ x < ((0 + steps.length : Nat) : Int) := by
        rw [hfst]
        intro x hx
        have := of_decide_eq_true (List.all_eq_true.mp hrangeB x hx)
        constructor
        · exact_mod_cast this.1
        · have h2 := this.2
          push_cast
          omega
      have hprops := visitLoop_props
        (Frame.mk id ftype ca code input value caller gas steps children result)
        path
        (stack ++ [Frame.mk id ftype ca code input value caller gas steps children result])
        steps 0
        (visitChildren path
          (stack ++ [Frame.mk id ftype ca code input value caller gas steps children result])
          0 children)
        hsorted2 hrange2
      have hllen : (visitLoop
          (Frame.mk id ftype ca code input value caller gas steps children result)
          path
          (stack ++ [Frame.mk id ftype ca code input value caller gas steps children result])
          steps 0
          (visitChildren path
            (stack ++ [Frame.mk id ftype ca code input value caller gas steps children result])
            0 children)).length
          = steps.length + ((visitChildren path
              (stack ++ [Frame.mk id ftype ca code input value caller gas steps children result])
              0 children).map (fun pr => pr.2.length)).sum := hprops.1
      have hlcount : (visitLoop
          (Frame.mk id ftype ca code input value caller gas steps children result)
          path
          (stack ++ [Frame.mk id ftype ca code input value caller gas steps children result])
          steps 0
          (visitChildren path
            (stack ++ [Frame.mk id ftype ca code input value caller gas steps children result])
            0 children)).countP (fun fl => fl.isFrameEnd)
          = ((visitChildren path
              (stack ++ [Frame.mk id ftype ca code input value caller gas steps children result])
              0 children).map
                (fun pr => pr.2.countP (fun fl => fl.isFrameEnd))).sum := hprops.2.1
      have hlmem : ∀ fl ∈ (visitLoop
          (Frame.mk id ftype ca code input value caller gas steps children result)
          path
          (stack ++ [Frame.mk id ftype ca code input value caller gas steps children result])
          steps 0
          (visitChildren path
            (stack ++ [Frame.mk id ftype ca code input value caller gas steps children result])
            0 children)),
          (fl.framePath = path ∧ fl.isFrameEnd = false)
            ∨ ∃ pr ∈ (visitChildren path
                (stack ++ [Frame.mk id ftype ca code input value caller gas steps children result])
                0 children), fl ∈ pr.2 := hprops.2.2
      have htot : totalEntries
          (Frame.mk id ftype ca code input value caller gas steps children result)
          = steps.length + 1 + totalEntriesChildren children := rfl
      have hfc : frameCount
          (Frame.mk id ftype ca code input value caller gas steps children result)
          = 1 + frameCountChildren children := rfl
      refine ⟨?_, ?_, ?_, ?_⟩
      · rw [visit_mk, List.length_append, hllen, hsum, htot,
          List.length_singleton]
        omega
      · rw [visit_mk, List.countP_append, hlcount, hcsum, hfc]
        have hone : List.countP (fun fl => fl.isFrameEnd)
            [({ frame := Frame.mk id ftype ca code input value caller gas steps
                  children result,
                framePath := path, stepIndex := -1,
                callStack := stack
                  ++ [Frame.mk id ftype ca code input value caller gas steps children result],
                isFrameEnd := true } : FlatStep)] = 1 := rfl
        rw [hone]
        omega
      · refine ⟨_, visit_mk id ftype ca code input value caller gas steps children
          result path stack, ?_⟩
        intro fl hfl hflpath
        rcases hlmem fl hfl with ⟨_, hfe⟩ | ⟨pr, hpr, hin⟩
        · exact hfe
        · exfalso
          have := hpaths pr hpr fl hin
          rw [hflpath] at this
          exact lt_irrefl _ this
      · intro fl hfl
        rw [visit_mk] at hfl
        rcases List.mem_append.mp hfl with hfl | hfl
        · rcases hlmem fl hfl with ⟨hp, _⟩ | ⟨pr, hpr, hin⟩
          · exact Or.inl hp
          · exact Or.inr (hpaths pr hpr fl hin)
        · simp at hfl
          subst hfl
          exact Or.inl rfl
    · intro path cs k _
      refine ⟨rfl, rfl, rfl, ?_⟩
      intro pr hpr
      simp [visitChildren] at hpr
    · intro path cs k c cs2 ih1 ih2 hgood
      have hgood2 : (goodFrameB c.2 && goodChildren cs2) = true := hgood
      rw [Bool.and_eq_true] at hgood2
      obtain ⟨hg1, hg2⟩ := hgood2
      obtain ⟨h1len, h1cnt, _, h1paths⟩ := ih1 hg1
      obtain ⟨h2sum, h2cnt, h2fst, h2paths⟩ := ih2 hg2
      have hvc : visitChildren path cs k (c :: cs2)
          = (c.1, visit c.2 (path ++ [k]) cs) :: visitChildren path cs (k + 1) cs2 := rfl
      have htec : totalEntriesChildren (c :: cs2)
          = totalEntries c.2 + totalEntriesChildren cs2 := rfl
      have hfcc : frameCountChildren (c :: cs2)
          = frameCount c.2 + frameCountChildren cs2 := rfl
      refine ⟨?_, ?_, ?_, ?_⟩
      · rw [hvc, List.map_cons, List.sum_cons, h1len, h2sum, htec]
      · rw [hvc, List.map_cons, List.sum_cons, h1cnt, h2cnt, hfcc]
      · rw [hvc, List.map_cons, h2fst, List.map_cons]
      · intro pr hpr fl hin
        rw [hvc] at hpr
        rcases List.mem_cons.mp hpr with hpr | hpr
        · subst hpr
          rcases h1paths fl hin with hp | hp
          · rw [hp]
            simp
          · have : (path ++ [k]).length = path.length + 1 := by simp
            omega
        · exact h2paths pr hpr fl hin
  intro f hgood
  have h := main f [] [] hgood
  refine ⟨⟨?_, ?_⟩, ?_⟩
  · exact h.1
  · exact h.2.1
  · intro path stack
    have h2 := main f path stack hgood
    exact ⟨h2.1, h2.2.1, h2.2.2.1⟩

/-- C5 witness: the concrete two-frame trace satisfies the sortedness and
range invariants, and its flattening has the predicted 4 + 2 entries with
one marker per frame. -/
theorem C5_witness :
    goodFrameB sampleRoot = true ∧
    (flattenSteps sampleRoot).length = totalEntries sampleRoot ∧
    (flattenSteps sampleRoot).countP (fun fl => fl.isFrameEnd) = 2 := by
  have h := C5_flatten_size sampleRoot (by decide)
  refine ⟨by decide, h.1.1, ?_⟩
  rw [h.1.2]
  decide

/-! Claim C10: implicit cursor safety. -/

/-- Safety property of one flattened entry: a non-marker entry indexes its
frame's steps in bounds. -/
def entrySafe (fl : FlatStep) : Prop :=
  fl.isFrameEnd = false →
    0 ≤ fl.stepIndex ∧ ∃ st, listGetInt fl.frame.steps fl.stepIndex = some st

theorem visitLoop_safe (f : Frame) (path : List Nat) (cs : List Frame) :
    ∀ (steps : List Step) (iNat : Nat) (children : List (Int × List FlatStep)),
      steps = f.steps.drop iNat →
      (∀ pr ∈ children, ∀ fl ∈ pr.2, entrySafe fl) →
      ∀ fl ∈ visitLoop f path cs steps (iNat : Int) children, entrySafe fl := by
  intro steps
  induction steps with
  | nil =>
    intro iNat children _ _ fl hfl
    simp [visitLoop] at hfl
  | cons s rest ih =>
    intro iNat children hdrop hch fl hfl
    rw [visitLoop] at hfl
    rcases List.mem_cons.mp hfl with hfl | hfl
    · subst hfl
      intro _
      refine ⟨by simp, s, ?_⟩
      have hget : f.steps[iNat]? = some s := by
        have h := List.getElem?_drop f.steps iNat 0
        rw [← hdrop] at h
        simpa using h.symm
      simp [listGetInt, hget]
    · rcases List.mem_append.mp hfl with hfl | hfl
      · rw [List.mem_flatten] at hfl
        obtain ⟨l, hl, hfll⟩ := hfl
        rw [List.mem_map] at hl
        obtain ⟨pr, hpr, rfl⟩ := hl
        exact hch pr (mem_of_mem_takeWhile _ _ pr hpr) fl hfll
      · have hdrop1 : rest = f.steps.drop (iNat + 1) := by
          rw [← List.drop_drop]
          rw [← hdrop]
          simp
        have hcast : ((iNat : Int) + 1) = ((iNat + 1 : Nat) : Int) := by push_cast; ring
        rw [hcast] at hfl
        exact ih (iNat + 1) _ hdrop1
          (fun pr hpr => hch pr (mem_of_mem_dropWhile _ _ pr hpr)) fl hfl

theorem visit_safe (f : Frame) (path : List Nat) (stack : List Frame) :
    ∀ fl ∈ visit f path stack, entrySafe fl := by
  refine visit.induct
    (fun f path stack => ∀ fl ∈ visit f path stack, entrySafe fl)
    (fun path cs k children =>
      ∀ pr ∈ visitChildren path cs k children, ∀ fl ∈ pr.2, entrySafe fl)
    ?_ ?_ ?_ f path stack
  · intro path stack id ftype ca code input value caller gas steps children result
      hch fl hfl
    rw [visit_mk] at hfl
    rcases List.mem_append.mp hfl with hfl | hfl
    · have h0 : steps = (Frame.mk id ftype ca code input value caller gas
          steps children result).steps.drop 0 := by
        simp [Frame.steps]
      have hsafe := visitLoop_safe
        (Frame.mk id ftype ca code input value caller gas steps children result)
        path
        (stack ++ [Frame.mk id ftype ca code input value caller gas steps children result])
        steps 0
        (visitChildren path
          (stack ++ [Frame.mk id ftype ca code input value caller gas steps children result])
          0 children)
        h0 hch fl
      apply hsafe
      exact_mod_cast hfl
    · simp at hfl
      subst hfl
      intro hcontra
      simp at hcontra
  · intro path cs k pr hpr
    simp [visitChildren] at hpr
  · intro path cs k c cs2 ih1 ih2 pr hpr
    rw [visitChildren] at hpr
    rcases List.mem_cons.mp hpr with hpr | hpr
    · subst hpr
      exact ih1
    · exact ih2 pr hpr

/-- C10: flattening any frame tree is non-empty (so the initial cursor 0 of
a fresh session is valid); every navigation operation keeps the cursor
within bounds and leaves the flattened list unchanged; every non-marker
entry of a flattening indexes its frame's steps in bounds; and currentStep
is null exactly at a frame-end marker and otherwise reads a real step, so
no getter reads out of bounds. -/
theorem C10_cursor_safety :
    (∀ root : Frame, 0 < (flattenSteps root).length) ∧
    (∀ trace : Trace, (DebugSession.new trace).globalStepIndex = 0 ∧
      (DebugSession.new trace).globalStepIndex
        < (DebugSession.new trace).flatSteps.length) ∧
    (∀ s : DebugSession, s.globalStepIndex < s.flatSteps.length →
      (s.stepForward.flatSteps = s.flatSteps ∧
        s.stepForward.globalStepIndex < s.flatSteps.length) ∧
      (s.stepBackward.flatSteps = s.flatSteps ∧
        s.stepBackward.globalStepIndex < s.flatSteps.length) ∧
      (s.stepOver.flatSteps = s.flatSteps ∧
        s.stepOver.globalStepIndex < s.flatSteps.length) ∧
      (s.stepOut.flatSteps = s.flatSteps ∧
        s.stepOut.globalStepIndex < s.flatSteps.length) ∧
      (∀ i, (s.jumpTo i).flatSteps = s.flatSteps ∧
        (s.jumpTo i).globalStepIndex < s.flatSteps.length) ∧
      (s.jumpToStart.flatSteps = s.flatSteps ∧
        s.jumpToStart.globalStepIndex < s.flatSteps.length) ∧
      (s.jumpToEnd.flatSteps = s.flatSteps ∧
        s.jumpToEnd.globalStepIndex < s.flatSteps.length)) ∧
    (∀ root : Frame, ∀ fl ∈ flattenSteps root, entrySafe fl) ∧
    (∀ (root : Frame) (s : DebugSession), s.flatSteps = flattenSteps root →
      s.globalStepIndex < s.flatSteps.length →
      (s.isAtFrameEnd = true → s.currentStep = none) ∧
      (s.isAtFrameEnd = false → ∃ st, s.currentStep = some st)) := by
  have hnonempty : ∀ root : Frame, 0 < (flattenSteps root).length := by
    intro root
    unfold flattenSteps
    cases root with
    | mk id ftype ca code input value caller gas steps children result =>
      rw [visit]
      simp
  refine ⟨hnonempty, ?_, ?_, ?_, ?_⟩
  · intro trace
    exact ⟨rfl, hnonempty trace.root⟩
  · intro s hvalid
    have hlen : 0 < s.flatSteps.length := by omega
    refine ⟨?_, ?_, ?_, ?_, ?_, ?_, ?_⟩
    · unfold DebugSession.stepForward
      by_cases h : s.globalStepIndex < s.flatSteps.length - 1
      · rw [if_pos h]
        exact ⟨rfl, by show s.globalStepIndex + 1 < s.flatSteps.length; omega⟩
      · rw [if_neg h]; exact ⟨rfl, hvalid⟩
    · unfold DebugSession.stepBackward
      by_cases h : s.globalStepIndex > 0
      · rw [if_pos h]
        exact ⟨rfl, by show s.globalStepIndex - 1 < s.flatSteps.length; omega⟩
      · rw [if_neg h]; exact ⟨rfl, hvalid⟩
    · unfold DebugSession.stepOver
      cases hcs : s.currentStep with
      | none =>
        simp only []
        unfold DebugSession.stepForward
        by_cases h : s.globalStepIndex < s.flatSteps.length - 1
        · rw [if_pos h]
          exact ⟨rfl, by show s.globalStepIndex + 1 < s.flatSteps.length; omega⟩
        · rw [if_neg h]; exact ⟨rfl, hvalid⟩
      | some st =>
        simp only []
        by_cases hco : FRAME_CREATING_OPCODES.contains st.opcode
        · rw [if_pos hco]
          cases hcf : s.currentFlat with
          | none => exact ⟨rfl, hvalid⟩
          | some cur =>
            have hspec := stepOverLoop_spec s.flatSteps cur.framePath cur.stepIndex
              (s.flatSteps.length - s.globalStepIndex) s.globalStepIndex le_rfl hvalid
            exact ⟨rfl, hspec.2.1⟩
        · rw [if_neg hco]
          unfold DebugSession.stepForward
          by_cases h : s.globalStepIndex < s.flatSteps.length - 1
          · rw [if_pos h]
            exact ⟨rfl, by show s.globalStepIndex + 1 < s.flatSteps.length; omega⟩
          · rw [if_neg h]; exact ⟨rfl, hvalid⟩
    · unfold DebugSession.stepOut
      by_cases h : s.getCallStack.length ≤ 1
      · rw [if_pos h]
        unfold DebugSession.jumpToEnd
        exact ⟨rfl, by show s.flatSteps.length - 1 < s.flatSteps.length; omega⟩
      · rw [if_neg h]
        exact ⟨rfl, stepOutLoop_bound s.flatSteps _
          (s.flatSteps.length - s.globalStepIndex) s.globalStepIndex le_rfl hvalid⟩
    · intro i
      unfold DebugSession.jumpTo
      refine ⟨rfl, ?_⟩
      show (max 0 (min i ((s.flatSteps.length : Int) - 1))).toNat < s.flatSteps.length
      omega
    · unfold DebugSession.jumpToStart
      exact ⟨rfl, hlen⟩
    · unfold DebugSession.jumpToEnd
      exact ⟨rfl, by show s.flatSteps.length - 1 < s.flatSteps.length; omega⟩
  · intro root fl hfl
    exact visit_safe root [] [] fl hfl
  · intro root s hflat hvalid
    obtain ⟨fl, hfl⟩ : ∃ fl, s.currentFlat = some fl := by
      unfold DebugSession.currentFlat
      rw [List.get?_eq_get hvalid]
      exact ⟨_, rfl⟩
    have hmem : fl ∈ flattenSteps root := by
      rw [← hflat]
      exact List.get?_mem hfl
    constructor
    · intro hend
      unfold DebugSession.isAtFrameEnd at hend
      rw [hfl] at hend
      simp only [] at hend
      unfold DebugSession.currentStep
      rw [hfl]
      simp [hend]
    · intro hnotend
      unfold DebugSession.isAtFrameEnd at hnotend
      rw [hfl] at hnotend
      simp only [] at hnotend
      obtain ⟨_, st, hst⟩ := visit_safe root [] [] fl hmem hnotend
      refine ⟨st, ?_⟩
      unfold DebugSession.currentStep
      rw [hfl]
      simp [hnotend, hst]

/-- C10 witness: the concrete session has a valid initial cursor, stepOver
keeps the cursor in bounds there, and since its initial position is not a
frame-end marker, currentStep reads a real step. -/
theorem C10_witness :
    sampleSession.globalStepIndex < sampleSession.flatSteps.length ∧
    sampleSession.stepOver.globalStepIndex < sampleSession.flatSteps.length ∧
    (sampleSession.isAtFrameEnd = false → ∃ st, sampleSession.currentStep = some st) := by
  have h3 := (C10_cursor_safety.2.2.1 sampleSession (by decide)).2.2.1
  have h5 := C10_cursor_safety.2.2.2.2 sampleRoot sampleSession rfl (by decide)
  exact ⟨by decide, h3.2, h5.2⟩

/-! Claim C7: assembler immediate handling. -/

theorem dropWhile_eq_self_of_all {α : Type} (p : α → Bool) (l : List α)
    (h : ∀ c ∈ l, p c = false) : l.dropWhile p = l := by
  cases l with
  | nil => rfl
  | cons a t =>
    exact List.dropWhile_cons_of_neg (by rw [h a (by simp)]; simp)

theorem takeWhile_eq_self_of_all {α : Type} (p : α → Bool) :
    ∀ l : List α, (∀ c ∈ l, p c = true) → l.takeWhile p = l := by
  intro l
  induction l with
  | nil => intro _; rfl
  | cons a t ih =>
    intro h
    rw [List.takeWhile_cons_of_pos (h a (by simp))]
    rw [ih (fun c hc => h c (by simp [hc]))]

theorem dropWhile_eq_nil_of_all {α : Type} (p : α → Bool) :
    ∀ l : List α, (∀ c ∈ l, p c = true) → l.dropWhile p = [] := by
  intro l
  induction l with
  | nil => intro _; rfl
  | cons a t ih =>
    intro h
    rw [List.dropWhile_cons_of_pos (h a (by simp))]
    exact ih (fun c hc => h c (by simp [hc]))

theorem trimStr_eq_self (s : Str) (h : ∀ c ∈ s, isWs c = false) : trimStr s = s := by
  unfold trimStr
  rw [dropWhile_eq_self_of_all _ _ h,
      dropWhile_eq_self_of_all _ _ (fun c hc => h c (List.mem_reverse.mp hc)),
      List.reverse_reverse]

theorem splitWs_single (tok : Str) (hne : tok ≠ []) (h : ∀ c ∈ tok, isWs c = false) :
    splitWs tok = [tok] := by
  cases tok with
  | nil => exact absurd rfl hne
  | cons c t =>
    rw [splitWs]
    rw [dif_neg (by rw [h c (by simp)]; simp)]
    rw [takeWhile_eq_self_of_all _ (c :: t)
        (fun x hx => by rw [h x hx]; rfl),
      dropWhile_eq_nil_of_all _ (c :: t)
        (fun x hx => by rw [h x hx]; rfl)]
    rw [splitWs]

theorem takeWhile_append_stop {α : Type} (p : α → Bool) :
    ∀ (a : List α) (x : α) (r : List α), (∀ c ∈ a, p c = true) → p x = false →
      (a ++ x :: r).takeWhile p = a ∧ (a ++ x :: r).dropWhile p = x :: r := by
  intro a
  induction a with
  | nil =>
    intro x r _ hx
    constructor
    · rw [List.nil_append, List.takeWhile_cons_of_neg (by rw [hx]; simp)]
    · rw [List.nil_append, List.dropWhile_cons_of_neg (by rw [hx]; simp)]
  | cons c t ih =>
    intro x r h hx
    obtain ⟨h1, h2⟩ := ih x r (fun y hy => h y (by simp [hy])) hx
    constructor
    · rw [List.cons_append, List.takeWhile_cons_of_pos (h c (by simp)), h1]
    · rw [List.cons_append, List.dropWhile_cons_of_pos (h c (by simp)), h2]

theorem splitWs_two (a b : Str) (ha : a ≠ []) (hb : b ≠ [])
    (hwa : ∀ c ∈ a, isWs c = false) (hwb : ∀ c ∈ b, isWs c = false) :
    splitWs (a ++ ' ' :: b) = [a, b] := by
  obtain ⟨htake, hdrop⟩ := takeWhile_append_stop (fun x => !isWs x) a ' ' b
    (fun c hc => by simp [hwa c hc]) (by decide)
  cases a with
  | nil => exact absurd rfl ha
  | cons c t =>
    rw [List.cons_append, splitWs]
    rw [dif_neg (by rw [hwa c (by simp)]; simp)]
    rw [← List.cons_append, htake, hdrop]
    rw [splitWs]
    rw [dif_pos (by decide)]
    rw [dropWhile_eq_self_of_all _ b hwb, splitWs_single b hb hwb]

theorem hex_not_ws (c : Char) (h : isHexChar c = true) : isWs c = false := by
  by_contra hc
  rw [Bool.not_eq_false] at hc
  unfold isWs at hc
  rcases of_decide_eq_true hc with h1 | h1 | h1 | h1 <;>
    (subst h1; exact absurd h (by decide))

theorem digit_is_hex (c : Char) (h : isDigitChar c = true) : isHexChar c = true := by
  unfold isHexChar isLowerHexChar
  rw [h]
  rfl

/-- Generalization of the no-0x-prefix argument: a hex digit string never
starts with a zero followed by a non-hex-digit character. -/
theorem not_0c_prefixOf_hex (c0 : Char) (H : Str) (hc0 : isLowerHexChar c0 = false)
    (hh : ∀ c ∈ H, isLowerHexChar c = true) :
    ['0', c0].isPrefixOf H = false := by
  match H with
  | [] => rfl
  | [c1] => simp [List.isPrefixOf]
  | c1 :: c2 :: t2 =>
    have h2 : isLowerHexChar c2 = true := hh c2 (by simp)
    have hx : c2 ≠ c0 := by
      intro e
      subst e
      rw [h2] at hc0
      simp at hc0
    simp [List.isPrefixOf]
    intro _
    exact fun e => absurd e.symm hx

theorem parseValue_hex (digits : Str) (hne : digits ≠ [])
    (hhex : digits.all isHexChar = true) :
    parseValue (['0', 'x'] ++ digits) = .ok (parseHexNat digits) ∧
    parseValue (['0', 'X'] ++ digits) = .ok (parseHexNat digits) := by
  have hd : ∀ c ∈ digits, isHexChar c = true := List.all_eq_true.mp hhex
  have hlen : 0 < digits.length := List.length_pos.mpr hne
  constructor
  · have hnws : ∀ c ∈ ('0' :: 'x' :: digits), isWs c = false := by
      intro c hc
      rcases List.mem_cons.mp hc with h | hc
      · subst h; decide
      rcases List.mem_cons.mp hc with h | hc
      · subst h; decide
      · exact hex_not_ws c (hd c hc)
    simp only [parseValue, List.cons_append, List.nil_append]
    rw [trimStr_eq_self _ hnws]
    rw [if_pos (Or.inl (by simp [List.isPrefixOf]))]
    rw [if_neg (by simp only [List.length_cons]; omega)]
    have hdrop : List.drop 2 ('0' :: 'x' :: digits) = digits := rfl
    rw [hdrop, if_pos hhex]
  · have hnws : ∀ c ∈ ('0' :: 'X' :: digits), isWs c = false := by
      intro c hc
      rcases List.mem_cons.mp hc with h | hc
      · subst h; decide
      rcases List.mem_cons.mp hc with h | hc
      · subst h; decide
      · exact hex_not_ws c (hd c hc)
    simp only [parseValue, List.cons_append, List.nil_append]
    rw [trimStr_eq_self _ hnws]
    rw [if_pos (Or.inr (by simp [List.isPrefixOf]))]
    rw [if_neg (by simp only [List.length_cons]; omega)]
    have hdrop : List.drop 2 ('0' :: 'X' :: digits) = digits := rfl
    rw [hdrop, if_pos hhex]

theorem parseValue_dec (digits : Str) (hne : digits ≠ [])
    (hdig : digits.all isDigitChar = true) :
    parseValue digits = .ok (parseDecNat digits) := by
  have hd : ∀ c ∈ digits, isDigitChar c = true := List.all_eq_true.mp hdig
  have hdhex : ∀ c ∈ digits, isLowerHexChar c = true := by
    intro c hc
    unfold isLowerHexChar
    rw [hd c hc]
    rfl
  have hnws : ∀ c ∈ digits, isWs c = false :=
    fun c hc => hex_not_ws c (digit_is_hex c (hd c hc))
  simp only [parseValue]
  rw [trimStr_eq_self _ hnws]
  rw [if_neg (by
    rw [not_or]
    constructor
    · rw [not_0c_prefixOf_hex 'x' digits (by decide) hdhex]
      simp
    · rw [not_0c_prefixOf_hex 'X' digits (by decide) hdhex]
      simp)]
  split
  · exfalso
    exact absurd (hd 'b' (by simp)) (by decide)
  · exfalso
    exact absurd (hd 'B' (by simp)) (by decide)
  · exfalso
    exact absurd (hd 'o' (by simp)) (by decide)
  · exfalso
    exact absurd (hd 'O' (by simp)) (by decide)
  · exfalso
    exact absurd (hd '-' (by simp)) (by decide)
  · exfalso
    exact absurd (hd '+' (by simp)) (by decide)
  · rw [if_pos hdig]

theorem assembleLine_missing (lineNum : Nat) (mn : Str) (info : OpcodeInfo)
    (hne : mn ≠ []) (hw : ∀ c ∈ mn, isWs c = false)
    (hlook : getOpcodeByMnemonic (toUpperStr mn) = some info)
    (himm : 0 < info.immediateBytes) :
    assembleLine lineNum mn
      = .error (.missingImmediate (toUpperStr mn) info.immediateBytes (lineNum + 1)) := by
  simp only [assembleLine]
  rw [trimStr_eq_self mn hw, if_neg hne, splitWs_single mn hne hw]
  simp only [List.headD_cons]
  rw [hlook]
  simp only [List.length_cons, List.length_nil]
  rw [if_pos himm, if_pos (by omega)]

theorem trimStr_eq_self_of_ends (s : Str)
    (h1 : ∀ c, s.head? = some c → isWs c = false)
    (h2 : ∀ c, s.getLast? = some c → isWs c = false) : trimStr s = s := by
  unfold trimStr
  have hfront : s.dropWhile isWs = s := by
    cases s with
    | nil => rfl
    | cons a t => exact List.dropWhile_cons_of_neg (by rw [h1 a rfl]; simp)
  rw [hfront]
  have hback : s.reverse.dropWhile isWs = s.reverse := by
    cases hrev : s.reverse with
    | nil => rfl
    | cons a t =>
      refine List.dropWhile_cons_of_neg ?_
      have ha : s.getLast? = some a := by
        rw [← List.head?_reverse, hrev]
        rfl
      rw [h2 a ha]
      simp
  rw [hback, List.reverse_reverse]

theorem assembleLine_two (lineNum : Nat) (mn tok : Str) (info : OpcodeInfo)
    (hmne : mn ≠ []) (hwm : ∀ c ∈ mn, isWs c = false)
    (htne : tok ≠ []) (hwt : ∀ c ∈ tok, isWs c = false)
    (hlook : getOpcodeByMnemonic (toUpperStr mn) = some info)
    (himm : 0 < info.immediateBytes) :
    assembleLine lineNum (mn ++ ' ' :: tok)
      = match parseValue tok with
        | .error e => .error (.invalidImmediate (toUpperStr mn) (lineNum + 1) e)
        | .ok value =>
          match toHex value info.immediateBytes with
          | .error e => .error (.invalidImmediate (toUpperStr mn) (lineNum + 1) e)
          | .ok immHex => .ok (padStart (natToHex info.code) 2 '0' ++ immHex) := by
  have htrim : trimStr (mn ++ ' ' :: tok) = mn ++ ' ' :: tok := by
    apply trimStr_eq_self_of_ends
    · intro c hc
      cases mn with
      | nil => exact absurd rfl hmne
      | cons m mt =>
        rw [List.cons_append] at hc
        injection hc with h
        exact h ▸ hwm m (by simp)
    · intro c hc
      obtain ⟨x, hx⟩ := Option.isSome_iff_exists.mp (List.getLast?_isSome.mpr htne)
      have h2 : (' ' :: tok).getLast? = some x := by
        rw [show (' ' :: tok) = [' '] ++ tok from rfl, List.getLast?_append, hx]
        rfl
      rw [List.getLast?_append, h2] at hc
      have hcx : c = x := by
        have : (some x).or mn.getLast? = some x := rfl
        rw [this] at hc
        injection hc with h
        exact h.symm
      exact hcx ▸ hwt x (List.mem_of_mem_getLast? hx)
  simp only [assembleLine]
  rw [htrim]
  rw [if_neg (by simp [hmne])]
  rw [splitWs_two mn tok hmne htne hwm hwt]
  simp only [List.headD_cons]
  rw [hlook]
  simp only [List.length_cons, List.length_nil]
  rw [if_pos himm, if_neg (by omega)]
  have hgetd : ([mn, tok].getD 1 []) = tok := rfl
  rw [hgetd]

/-- C7: on a line whose (uppercased) mnemonic resolves to an opcode with a
positive immediate byte count, assembly fails with the 1-based line number
when there is no second token; when the token parses, a negative value or a
value exceeding the capacity of the immediate fails, and an in-range value
is emitted big-endian as exactly 2n lowercase hex characters directly after
the opcode byte; tokens are accepted as 0x- or 0X-prefixed hex or as
decimal; and a line error aborts the whole assembly with that error. -/
theorem C7_immediate_handling :
    (∀ (lineNum : Nat) (mn : Str) (info : OpcodeInfo),
      mn ≠ [] → (∀ c ∈ mn, isWs c = false) →
      getOpcodeByMnemonic (toUpperStr mn) = some info →
      0 < info.immediateBytes →
      assembleLine lineNum mn
        = .error (.missingImmediate (toUpperStr mn) info.immediateBytes (lineNum + 1))) ∧
    (∀ (lineNum : Nat) (mn tok : Str) (info : OpcodeInfo),
      mn ≠ [] → (∀ c ∈ mn, isWs c = false) →
      tok ≠ [] → (∀ c ∈ tok, isWs c = false) →
      getOpcodeByMnemonic (toUpperStr mn) = some info →
      0 < info.immediateBytes →
      (∀ e, parseValue tok = .error e →
        assembleLine lineNum (mn ++ ' ' :: tok)
          = .error (.invalidImmediate (toUpperStr mn) (lineNum + 1) e)) ∧
      (∀ v : Int, parseValue tok = .ok v →
        (v < 0 →
          assembleLine lineNum (mn ++ ' ' :: tok)
            = .error (.invalidImmediate (toUpperStr mn) (lineNum + 1)
                (.negativeValue v))) ∧
        ((2 ^ (info.immediateBytes * 8) - 1 : Int) < v →
          assembleLine lineNum (mn ++ ' ' :: tok)
            = .error (.invalidImmediate (toUpperStr mn) (lineNum + 1)
                (.valueTooLarge v info.immediateBytes))) ∧
        (0 ≤ v → v ≤ (2 ^ (info.immediateBytes * 8) - 1 : Int) →
          assembleLine lineNum (mn ++ ' ' :: tok)
            = .ok (padStart (natToHex info.code) 2 '0'
                ++ padStart (natToHex v.toNat) (info.immediateBytes * 2) '0')
          ∧ (padStart (natToHex v.toNat) (info.immediateBytes * 2) '0').length
              = info.immediateBytes * 2
          ∧ (parseHexNat (padStart (natToHex v.toNat) (info.immediateBytes * 2) '0') : Int)
              = v
          ∧ ∀ c ∈ padStart (natToHex v.toNat) (info.immediateBytes * 2) '0',
              isLowerHexChar c = true))) ∧
    (∀ digits : Str, digits ≠ [] → digits.all isHexChar = true →
      parseValue (['0', 'x'] ++ digits) = .ok (parseHexNat digits) ∧
      parseValue (['0', 'X'] ++ digits) = .ok (parseHexNat digits)) ∧
    (∀ digits : Str, digits ≠ [] → digits.all isDigitChar = true →
      parseValue digits = .ok (parseDecNat digits)) ∧
    (∀ (lineNum : Nat) (l : Str) (ls : List Str) (e : AsmError),
      assembleLine lineNum l = .error e →
      assembleLines lineNum (l :: ls) = .error e) := by
  refine ⟨?_, ?_, ?_, ?_, ?_⟩
  · intro lineNum mn info hne hw hlook himm
    exact assembleLine_missing lineNum mn info hne hw hlook himm
  · intro lineNum mn tok info hmne hwm htne hwt hlook himm
    have htwo := assembleLine_two lineNum mn tok info hmne hwm htne hwt hlook himm
    constructor
    · intro e he
      simp only [htwo, he]
    · intro v hv
      have hmax0 : (0 : Int) ≤ 2 ^ (info.immediateBytes * 8) - 1 := by
        have : (0 : Int) < 2 ^ (info.immediateBytes * 8) := pow_pos (by omega) _
        omega
      refine ⟨?_, ?_, ?_⟩
      · intro hneg
        have htx : toHex v info.immediateBytes = .error (.negativeValue v) := by
          unfold toHex
          rw [if_pos hneg]
        simp only [htwo, hv, htx]
      · intro hbig
        have htx : toHex v info.immediateBytes
            = .error (.valueTooLarge v info.immediateBytes) := by
          unfold toHex
          rw [if_neg (by omega)]
          simp only []
          rw [if_pos (by omega)]
        simp only [htwo, hv, htx]
      · intro hge hle
        have htx : toHex v info.immediateBytes
            = .ok (padStart (natToHex v.toNat) (info.immediateBytes * 2) '0') := by
          unfold toHex
          rw [if_neg (by omega)]
          simp only []
          rw [if_neg (by omega)]
        have hpow : (16 : Nat) ^ (info.immediateBytes * 2)
            = 2 ^ (info.immediateBytes * 8) := by
          rw [show (16 : Nat) = 2 ^ 4 from rfl, ← pow_mul]
          congr 1
          ring
        have hcastpow : (((2 : Nat) ^ (info.immediateBytes * 8) : Nat) : Int)
            = 2 ^ (info.immediateBytes * 8) := by
          push_cast
          ring
        have hvlt : v.toNat < 16 ^ (info.immediateBytes * 2) := by
          rw [hpow]
          omega
        have hlen : (padStart (natToHex v.toNat) (info.immediateBytes * 2) '0').length
            = info.immediateBytes * 2 := by
          rw [padStart_length]
          have := natToHex_length_le v.toNat (info.immediateBytes * 2) (by omega) hvlt
          omega
        refine ⟨?_, hlen, ?_, ?_⟩
        · simp only [htwo, hv, htx]
        · rw [parseHexNat_padStart, parseHexNat_natToHex]
          omega
        · intro c hc
          rcases padStart_chars _ _ _ _ hc with h | h
          · subst h; decide
          · exact natToHex_chars _ c h
  · intro digits hne hhex
    exact parseValue_hex digits hne hhex
  · intro digits hne hdig
    exact parseValue_dec digits hne hdig
  · intro lineNum l ls e he
    simp only [assembleLines, he]
    rfl

/-- C7 witness: a PUSH2 line without an operand fails naming line 8, and
PUSH2 with decimal operand 5 emits the opcode byte followed by the
zero-padded four-character immediate. -/
theorem C7_witness :
    assembleLine 7 ("PUSH2".data)
      = .error (.missingImmediate ("PUSH2".data) 2 8) ∧
    assembleLine 0 ("PUSH2 5".data) = .ok ("610005".data) := by
  have hlook : getOpcodeByMnemonic (toUpperStr ("PUSH2".data))
      = some (opImm 0x61 "PUSH2" [] ["value"] 2) := by rfl
  constructor
  · have h1 := C7_immediate_handling.1 7 ("PUSH2".data)
      (opImm 0x61 "PUSH2" [] ["value"] 2) (by decide) (by decide) hlook (by decide)
    rw [h1]
    decide
  · have hpv : parseValue ("5".data) = .ok 5 := by
      have hd := C7_immediate_handling.2.2.2.1 ("5".data) (by decide) (by decide)
      rw [hd]
      decide
    have h2 := ((C7_immediate_handling.2.1 0 ("PUSH2".data) ("5".data)
      (opImm 0x61 "PUSH2" [] ["value"] 2) (by decide) (by decide) (by decide)
      (by decide) hlook (by decide)).2 5 hpv).2.2 (by decide) (by decide)
    have heq : "PUSH2 5".data = "PUSH2".data ++ ' ' :: "5".data := rfl
    rw [heq, h2.1]
    decide

/-! Claim C8: disassembler totality and error conditions. -/

theorem char_toNat_valid (c : Char) : c.toNat.isValidChar := by
  have := c.valid
  unfold UInt32.isValidChar at this
  exact this

theorem charOfNat_toNat_self (c : Char) : Char.ofNat c.toNat = c :=
  char_eq_of_toNat_eq _ _ (charOfNat_toNat _ (char_toNat_valid c))

theorem lowerHex_ranges (c : Char) (h : isLowerHexChar c = true) :
    (48 ≤ c.toNat ∧ c.toNat ≤ 57) ∨ (97 ≤ c.toNat ∧ c.toNat ≤ 102) := by
  unfold isLowerHexChar isDigitChar at h
  rcases of_decide_eq_true h with h1 | h1
  · left
    have h2 := of_decide_eq_true h1
    exact ⟨(char_le_iff '0' c).mp h2.1, (char_le_iff c '9').mp h2.2⟩
  · right
    exact ⟨(char_le_iff 'a' c).mp h1.1, (char_le_iff c 'f').mp h1.2⟩

theorem isDigitChar_of_range (c : Char) (h1 : 48 ≤ c.toNat) (h2 : c.toNat ≤ 57) :
    isDigitChar c = true := by
  unfold isDigitChar
  exact decide_eq_true ⟨(char_le_iff '0' c).mpr h1, (char_le_iff c '9').mpr h2⟩

theorem isDigitChar_false_of_high (c : Char) (h1 : 97 ≤ c.toNat) :
    isDigitChar c = false := by
  unfold isDigitChar
  apply decide_eq_false
  intro hc
  have h2 := (char_le_iff c '9').mp hc.2
  have h9 : ('9').toNat = 57 := rfl
  omega

theorem hexVal_digit (c : Char) (h1 : 48 ≤ c.toNat) (h2 : c.toNat ≤ 57) :
    hexVal c = c.toNat - 48 := by
  unfold hexVal
  rw [if_pos (isDigitChar_of_range c h1 h2)]

theorem hexVal_af (c : Char) (h1 : 97 ≤ c.toNat) (h2 : c.toNat ≤ 102) :
    hexVal c = c.toNat - 87 := by
  unfold hexVal
  have hd := isDigitChar_false_of_high c h1
  rw [if_neg (by simp [hd]), if_pos ⟨(char_le_iff 'a' c).mpr h1, (char_le_iff c 'f').mpr h2⟩]

theorem hexVal_lt_16 (c : Char) (h : isLowerHexChar c = true) : hexVal c < 16 := by
  rcases lowerHex_ranges c h with ⟨h1, h2⟩ | ⟨h1, h2⟩
  · rw [hexVal_digit c h1 h2]
    omega
  · rw [hexVal_af c h1 h2]
    omega

theorem hexDigitChar_hexVal (c : Char) (h : isLowerHexChar c = true) :
    hexDigitChar (hexVal c) = c := by
  rcases lowerHex_ranges c h with ⟨h1, h2⟩ | ⟨h1, h2⟩
  · rw [hexVal_digit c h1 h2]
    unfold hexDigitChar
    rw [if_pos (by omega), show 48 + (c.toNat - 48) = c.toNat by omega]
    exact charOfNat_toNat_self c
  · rw [hexVal_af c h1 h2]
    unfold hexDigitChar
    rw [if_neg (by omega), show 87 + (c.toNat - 87) = c.toNat by omega]
    exact charOfNat_toNat_self c

theorem natToHexAux_zero : ∀ fuel, natToHexAux fuel 0 = [] := by
  intro fuel
  cases fuel with
  | zero => rfl
  | succ f => rw [natToHexAux, if_pos rfl]

theorem natToHexAux_single (fuel n : Nat) (h0 : 0 < n) (h16 : n < 16)
    (hf : n ≤ fuel) : natToHexAux fuel n = [hexDigitChar n] := by
  cases fuel with
  | zero => omega
  | succ f =>
    rw [natToHexAux, if_neg (by omega)]
    rw [show n / 16 = 0 by omega, natToHexAux_zero, show n % 16 = n by omega]
    rfl

/-- Hex print of the parse of a two-hex-character pair is that pair. -/
theorem byteHex_parse (c1 c2 : Char) (h1 : isLowerHexChar c1 = true)
    (h2 : isLowerHexChar c2 = true) :
    byteHex (parseHexNat [c1, c2]) = [c1, c2] := by
  have hv1 := hexVal_lt_16 c1 h1
  have hv2 := hexVal_lt_16 c2 h2
  have hp : parseHexNat [c1, c2] = hexVal c1 * 16 + hexVal c2 := by
    unfold parseHexNat
    simp [List.foldl]
  rw [hp]
  by_cases hz1 : hexVal c1 = 0
  · have hc1 : c1 = '0' := by
      rw [← hexDigitChar_hexVal c1 h1, hz1]
      rfl
    by_cases hz2 : hexVal c2 = 0
    · have hc2 : c2 = '0' := by
        rw [← hexDigitChar_hexVal c2 h2, hz2]
        rfl
      rw [hz1, hz2, hc1, hc2]
      rfl
    · rw [hz1]
      have hb : 0 * 16 + hexVal c2 = hexVal c2 := by omega
      rw [hb]
      unfold byteHex natToHex
      rw [if_neg hz2, natToHexAux_single _ _ (by omega) hv2 le_rfl]
      unfold padStart
      rw [show (2 - ([hexDigitChar (hexVal c2)]).length) = 1 from rfl]
      rw [hexDigitChar_hexVal c2 h2, hc1]
      rfl
  · have hge : 16 ≤ hexVal c1 * 16 + hexVal c2 := by omega
    have hlt : hexVal c1 * 16 + hexVal c2 < 256 := by omega
    unfold byteHex natToHex
    rw [if_neg (by omega)]
    obtain ⟨s, hs⟩ : ∃ s, hexVal c1 * 16 + hexVal c2 = s + 1 :=
      ⟨hexVal c1 * 16 + hexVal c2 - 1, by omega⟩
    rw [hs, natToHexAux]
    rw [if_neg (by omega)]
    rw [show (s + 1) / 16 = hexVal c1 by omega,
        show (s + 1) % 16 = hexVal c2 by omega]
    rw [natToHexAux_single s (hexVal c1) (by omega) hv1 (by omega)]
    unfold padStart
    rw [show (2 - ([hexDigitChar (hexVal c1)] ++ [hexDigitChar (hexVal c2)]).length)
        = 0 by simp]
    rw [hexDigitChar_hexVal c1 h1, hexDigitChar_hexVal c2 h2]
    rfl

/-- Byte list encoded by a validated even-length lowercase hex string. -/
def hexToBytes : Str → List Nat
  | c1 :: c2 :: rest => parseHexNat [c1, c2] :: hexToBytes rest
  | _ => []

theorem hexToBytes_spec : ∀ (hex : Str), hex.length % 2 = 0 →
    (∀ c ∈ hex, isLowerHexChar c = true) →
    bytesToHex (hexToBytes hex) = hex ∧ ∀ b ∈ hexToBytes hex, b < 256 := by
  intro hex
  induction hex using hexToBytes.induct with
  | case1 c1 c2 rest ih =>
    intro heven hchars
    have h1 : isLowerHexChar c1 = true := hchars c1 (by simp)
    have h2 : isLowerHexChar c2 = true := hchars c2 (by simp)
    obtain ⟨ihb, ihlt⟩ := ih (by simp at heven ⊢; omega)
      (fun c hc => hchars c (by simp [hc]))
    constructor
    · rw [hexToBytes, bytesToHex_cons, byteHex_parse c1 c2 h1 h2, ihb]
      rfl
    · intro b hb
      rw [hexToBytes] at hb
      rcases List.mem_cons.mp hb with hb | hb
      · subst hb
        have hp : parseHexNat [c1, c2] = hexVal c1 * 16 + hexVal c2 := by
          unfold parseHexNat
          simp [List.foldl]
        rw [hp]
        have := hexVal_lt_16 c1 h1
        have := hexVal_lt_16 c2 h2
        omega
      · exact ihlt b hb
  | case2 hex h =>
    intro heven hchars
    cases hex with
    | nil => exact ⟨rfl, fun b hb => by simp [hexToBytes] at hb⟩
    | cons c rest =>
      cases rest with
      | nil => simp at heven
      | cons c2 rest2 => exact (h c c2 rest2 rfl).elim

/-- spec-modelled: byte-level decoding exactly as the specification words it:
walk byte-by-byte; an undefined opcode byte yields INVALID(0xNN); a defined
opcode with immediate size n consumes the next n bytes as its 0x-prefixed
operand, and when fewer than n bytes remain the partial operand is emitted
with the instruction suffixed by the truncation comment. -/
def decodeBytes : List Nat → List Str
  | [] => []
  | b :: rest =>
    match getOpcodeByCode b with
    | none => ("INVALID(0x".data ++ byteHex b ++ ")".data) :: decodeBytes rest
    | some info =>
      if info.immediateBytes > 0 then
        if rest.length < info.immediateBytes then
          (info.mnemonic ++ " 0x".data ++ bytesToHex (rest.take info.immediateBytes)
            ++ " // truncated".data) :: decodeBytes (rest.drop info.immediateBytes)
        else
          (info.mnemonic ++ " 0x".data ++ bytesToHex (rest.take info.immediateBytes))
            :: decodeBytes (rest.drop info.immediateBytes)
      else info.mnemonic :: decodeBytes rest
termination_by l => l.length
decreasing_by all_goals (simp only [List.length_drop, List.length_cons]; omega)

theorem bytesToHex_take (bs : List Nat) (h : ∀ b ∈ bs, b < 256) :
    ∀ n, (bytesToHex bs).take (n * 2) = bytesToHex (bs.take n) := by
  induction bs with
  | nil => intro n; simp [bytesToHex_nil]
  | cons b rest ih =>
    intro n
    cases n with
    | zero => simp [bytesToHex_nil]
    | succ m =>
      rw [bytesToHex_cons]
      obtain ⟨c1, c2, hcc⟩ := List.length_eq_two.mp (byteHex_length b (h b (by simp)))
      rw [hcc]
      show (c1 :: c2 :: bytesToHex rest).take ((m + 1) * 2)
        = bytesToHex ((b :: rest).take (m + 1))
      rw [show (m + 1) * 2 = m * 2 + 1 + 1 by ring]
      rw [List.take_succ_cons, List.take_succ_cons, ih (fun x hx => h x (by simp [hx])) m]
      rw [List.take_succ_cons, bytesToHex_cons, hcc]
      rfl

theorem bytesToHex_drop (bs : List Nat) (h : ∀ b ∈ bs, b < 256) :
    ∀ n, (bytesToHex bs).drop (n * 2) = bytesToHex (bs.drop n) := by
  induction bs with
  | nil => intro n; simp [bytesToHex_nil]
  | cons b rest ih =>
    intro n
    cases n with
    | zero => simp [bytesToHex_nil]
    | succ m =>
      rw [bytesToHex_cons]
      obtain ⟨c1, c2, hcc⟩ := List.length_eq_two.mp (byteHex_length b (h b (by simp)))
      rw [hcc]
      show (c1 :: c2 :: bytesToHex rest).drop ((m + 1) * 2)
        = bytesToHex ((b :: rest).drop (m + 1))
      rw [show (m + 1) * 2 = m * 2 + 1 + 1 by ring]
      rw [List.drop_succ_cons, List.drop_succ_cons, ih (fun x hx => h x (by simp [hx])) m]
      rw [List.drop_succ_cons]

/-- The disassembler loop on the hex rendering of a byte sequence computes
exactly the byte-level decoding described by the specification. -/
theorem disasmLoop_bytesToHex : ∀ (fuel : Nat) (bytes : List Nat),
    bytes.length ≤ fuel → (∀ b ∈ bytes, b < 256) →
    disasmLoop (bytesToHex bytes) = decodeBytes bytes := by
  intro fuel
  induction fuel with
  | zero =>
    intro bytes hlen _
    have hb : bytes = [] := List.eq_nil_of_length_eq_zero (Nat.le_zero.mp hlen)
    subst hb
    rw [bytesToHex_nil]
    simp only [disasmLoop, decodeBytes]
  | succ f ih =>
    intro bytes hlen hlt
    cases bytes with
    | nil =>
      rw [bytesToHex_nil]
      simp only [disasmLoop, decodeBytes]
    | cons b rest =>
      have hb : b < 256 := hlt b (by simp)
      have hrest : ∀ x ∈ rest, x < 256 := fun x hx => hlt x (by simp [hx])
      have hrlen : rest.length ≤ f := by
        simp only [List.length_cons] at hlen
        omega
      obtain ⟨c1, c2, hcc⟩ := List.length_eq_two.mp (byteHex_length b hb)
      have hparse : parseHexNat [c1, c2] = b := by
        rw [← hcc, parseHexNat_byteHex]
      rw [bytesToHex_cons, hcc]
      show disasmLoop (c1 :: c2 :: bytesToHex rest) = decodeBytes (b :: rest)
      simp only [disasmLoop, decodeBytes, hparse]
      cases hop : getOpcodeByCode b with
      | none =>
        simp only [hop]
        rw [ih rest hrlen hrest]
        rfl
      | some info =>
        simp only [hop]
        by_cases himm : info.immediateBytes > 0
        · rw [if_pos himm, if_pos himm]
          rw [bytesToHex_take rest hrest info.immediateBytes,
              bytesToHex_drop rest hrest info.immediateBytes]
          have htlen : (bytesToHex (rest.take info.immediateBytes)).length
              = 2 * (rest.take info.immediateBytes).length :=
            bytesToHex_length _ (fun x hx => hrest x (List.take_subset _ _ hx))
          have hdlen : (rest.drop info.immediateBytes).length ≤ f := by
            simp only [List.length_drop]
            omega
          have hdrop : ∀ x ∈ rest.drop info.immediateBytes, x < 256 :=
            fun x hx => hrest x (List.drop_subset _ _ hx)
          by_cases htr : rest.length < info.immediateBytes
          · rw [if_pos (by rw [htlen, List.length_take]; omega), if_pos htr]
            rw [ih _ hdlen hdrop]
          · rw [if_neg (by rw [htlen, List.length_take]; omega), if_neg htr]
            rw [ih _ hdlen hdrop]
        · rw [if_neg himm, if_neg himm]
          rw [ih rest hrlen hrest]

/-! Claim C1: assembler/disassembler round trip. -/

theorem lowerHex_is_hex (c : Char) (h : isLowerHexChar c = true) :
    isHexChar c = true := by
  unfold isHexChar
  rw [h]
  rfl

theorem toLowerChar_of_lowerHex (c : Char) (h : isLowerHexChar c = true) :
    toLowerChar c = c := by
  unfold toLowerChar
  rcases lowerHex_ranges c h with ⟨h1, h2⟩ | ⟨h1, h2⟩ <;>
    refine if_neg (fun hc => ?_)
  · have := (char_le_iff 'A' c).mp hc.1
    have hA : ('A').toNat = 65 := rfl
    omega
  · have := (char_le_iff c 'Z').mp hc.2
    have hZ : ('Z').toNat = 90 := rfl
    omega

theorem lowerHex_ne_nl (c : Char) (h : isLowerHexChar c = true) : c ≠ '\n' := by
  intro he
  subst he
  exact absurd h (by decide)

theorem lowerHex_ne_slash (c : Char) (h : isLowerHexChar c = true) : c ≠ '/' := by
  intro he
  subst he
  exact absurd h (by decide)

theorem not_ws_ne_nl (c : Char) (h : isWs c = false) : c ≠ '\n' := by
  intro he
  subst he
  exact absurd h (by decide)

theorem toLowerStr_eq_self (s : Str) (h : ∀ c ∈ s, isLowerHexChar c = true) :
    toLowerStr s = s := by
  induction s with
  | nil => rfl
  | cons c rest ih =>
    unfold toLowerStr
    rw [List.map_cons, toLowerChar_of_lowerHex c (h c (by simp))]
    rw [show List.map toLowerChar rest = toLowerStr rest from rfl,
        ih (fun x hx => h x (by simp [hx]))]

set_option maxRecDepth 100000 in
/-- Every table entry is found again by mnemonic lookup: mnemonics are
pairwise distinct, so first-match search returns the entry itself. -/
theorem opcodeTable_mnemonic_lookup :
    ∀ o ∈ opcodeTable, getOpcodeByMnemonic o.mnemonic = some o := by decide

set_option maxRecDepth 100000 in
/-- Every table entry is found again by code lookup: codes are pairwise
distinct. -/
theorem opcodeTable_code_lookup :
    ∀ o ∈ opcodeTable, getOpcodeByCode o.code = some o := by decide

set_option maxRecDepth 100000 in
/-- Table mnemonics are already uppercase. -/
theorem opcodeTable_mnemonic_upper :
    ∀ o ∈ opcodeTable, toUpperStr o.mnemonic = o.mnemonic := by decide

set_option maxRecDepth 100000 in
/-- Table mnemonics are nonempty and free of whitespace, slashes and
newlines. -/
theorem opcodeTable_mnemonic_wf :
    ∀ o ∈ opcodeTable, o.mnemonic ≠ [] ∧
      ∀ c ∈ o.mnemonic, isWs c = false ∧ c ≠ '/' := by decide

set_option maxRecDepth 100000 in
/-- Table codes are bytes. -/
theorem opcodeTable_code_lt : ∀ o ∈ opcodeTable, o.code < 256 := by decide

/-- Comment stripping is the identity on sources without a slash. -/
theorem stripComments_eq_self : ∀ (s : Str), (∀ c ∈ s, c ≠ '/') →
    stripComments s = s := by
  intro s
  induction s with
  | nil =>
    intro _
    simp only [stripComments]
  | cons c rest ih =>
    intro h
    rw [stripComments.eq_def]
    split
    · rename_i heq
      exact List.noConfusion heq
    · rename_i rest2 heq
      injection heq with h1 _
      exact absurd h1 (h c (by simp))
    · rename_i rest2 heq
      injection heq with h1 _
      exact absurd h1 (h c (by simp))
    · rename_i heq
      injection heq with h1 h2
      subst h1
      subst h2
      rw [ih (fun x hx => h x (by simp [hx]))]

theorem splitNl_no_nl : ∀ (l : Str), (∀ c ∈ l, c ≠ '\n') → splitNl l = [l] := by
  intro l
  induction l with
  | nil => intro _; rfl
  | cons c rest ih =>
    intro h
    rw [splitNl.eq_def]
    split
    · rename_i heq
      exact List.noConfusion heq
    · rename_i rest2 heq
      injection heq with h1 _
      exact absurd h1 (h c (by simp))
    · rename_i heq
      injection heq with h1 h2
      subst h1
      subst h2
      rw [ih (fun x hx => h x (by simp [hx]))]

theorem splitNl_append_nl (l : Str) (hl : ∀ c ∈ l, c ≠ '\n') :
    ∀ rest, splitNl (l ++ '\n' :: rest) = l :: splitNl rest := by
  induction l with
  | nil => intro rest; rfl
  | cons c t ih =>
    intro rest
    rw [List.cons_append, splitNl.eq_def]
    split
    · rename_i heq
      exact List.noConfusion heq
    · rename_i rest2 heq
      injection heq with h1 _
      exact absurd h1 (hl c (by simp))
    · rename_i heq
      injection heq with h1 h2
      subst h1
      subst h2
      rw [ih (fun x hx => hl x (by simp [hx])) rest]

theorem joinNl_nil : joinNl [] = [] := rfl

theorem joinNl_single (l : Str) : joinNl [l] = l := by
  simp [joinNl, List.intercalate]

theorem joinNl_cons_cons (l l2 : Str) (t : List Str) :
    joinNl (l :: l2 :: t) = l ++ '\n' :: joinNl (l2 :: t) := by
  simp [joinNl, List.intercalate, List.intersperse]

theorem splitNl_joinNl : ∀ (lines : List Str), lines ≠ [] →
    (∀ l ∈ lines, ∀ c ∈ l, c ≠ '\n') →
    splitNl (joinNl lines) = lines := by
  intro lines
  induction lines with
  | nil => intro h _; exact absurd rfl h
  | cons l rest ih =>
    intro _ hl
    cases rest with
    | nil =>
      rw [joinNl_single]
      exact splitNl_no_nl l (hl l (by simp))
    | cons l2 t =>
      rw [joinNl_cons_cons, splitNl_append_nl l (hl l (by simp)),
          ih (by simp) (fun x hx => hl x (by simp [hx]))]

theorem mem_joinNl (lines : List Str) (c : Char) (hc : c ∈ joinNl lines) :
    c = '\n' ∨ ∃ l ∈ lines, c ∈ l := by
  induction lines with
  | nil => rw [joinNl_nil] at hc; simp at hc
  | cons l rest ih =>
    cases rest with
    | nil =>
      rw [joinNl_single] at hc
      exact Or.inr ⟨l, by simp, hc⟩
    | cons l2 t =>
      rw [joinNl_cons_cons] at hc
      rcases List.mem_append.mp hc with h | h
      · exact Or.inr ⟨l, by simp, h⟩
      · rcases List.mem_cons.mp h with h | h
        · exact Or.inl h
        · rcases ih h with h2 | ⟨l3, hl3, hcl3⟩
          · exact Or.inl h2
          · exact Or.inr ⟨l3, by simp [List.mem_cons.mp hl3], hcl3⟩

/-- One disassembler iteration on a no-immediate opcode byte. -/
theorem disasmLoop_op (info : OpcodeInfo) (rest : Str)
    (hlook : getOpcodeByCode info.code = some info) (hcode : info.code < 256)
    (himm : info.immediateBytes = 0) :
    disasmLoop (byteHex info.code ++ rest) = info.mnemonic :: disasmLoop rest := by
  obtain ⟨c1, c2, hcc⟩ := List.length_eq_two.mp (byteHex_length info.code hcode)
  have hparse : parseHexNat [c1, c2] = info.code := by
    rw [← hcc, parseHexNat_byteHex]
  rw [hcc]
  show disasmLoop (c1 :: c2 :: rest) = info.mnemonic :: disasmLoop rest
  simp only [disasmLoop, hparse, hlook]
  rw [if_neg (by omega)]

/-- One disassembler iteration on an immediate-carrying opcode byte followed
by its full zero-padded operand. -/
theorem disasmLoop_opImm (info : OpcodeInfo) (v : Nat) (rest : Str)
    (hlook : getOpcodeByCode info.code = some info) (hcode : info.code < 256)
    (himm : 0 < info.immediateBytes) (hv : v < 2 ^ (info.immediateBytes * 8)) :
    disasmLoop (byteHex info.code
        ++ (padStart (natToHex v) (info.immediateBytes * 2) '0' ++ rest))
      = (info.mnemonic ++ " 0x".data
          ++ padStart (natToHex v) (info.immediateBytes * 2) '0')
        :: disasmLoop rest := by
  obtain ⟨c1, c2, hcc⟩ := List.length_eq_two.mp (byteHex_length info.code hcode)
  have hparse : parseHexNat [c1, c2] = info.code := by
    rw [← hcc, parseHexNat_byteHex]
  rw [hcc]
  show disasmLoop (c1 :: c2
      :: (padStart (natToHex v) (info.immediateBytes * 2) '0' ++ rest)) = _
  simp only [disasmLoop, hparse, hlook]
  rw [if_pos himm]
  have hpow : v < 16 ^ (info.immediateBytes * 2) := by
    rw [show (16 : Nat) = 2 ^ 4 from rfl, ← pow_mul,
        show 4 * (info.immediateBytes * 2) = info.immediateBytes * 8 by ring]
    exact hv
  have hlen : (padStart (natToHex v) (info.immediateBytes * 2) '0').length
      = info.immediateBytes * 2 := by
    rw [padStart_length]
    have := natToHex_length_le v (info.immediateBytes * 2) (by omega) hpow
    omega
  rw [List.take_left' hlen, List.drop_left' hlen]
  rw [if_neg (by rw [hlen]; omega)]

/-- spec-modelled: canonical rendering of one instruction in the sense of the
round-trip claim, strengthened with zero-padding: uppercase table mnemonic,
then for an immediate-carrying opcode a single space and a 0x-prefixed
lowercase immediate zero-padded to exactly 2 * immediateBytes hex digits. -/
def canonicalInstr (p : OpcodeInfo × Nat) : Str :=
  if 0 < p.1.immediateBytes then
    p.1.mnemonic ++ " 0x".data ++ padStart (natToHex p.2) (p.1.immediateBytes * 2) '0'
  else p.1.mnemonic

/-- spec-modelled: canonical source for an instruction sequence: canonical
lines joined by single newlines, no comments. -/
def canonicalRender (instrs : List (OpcodeInfo × Nat)) : Str :=
  joinNl (instrs.map canonicalInstr)

/-- Hex emitted by assemble for one canonical instruction. -/
def instrHex (p : OpcodeInfo × Nat) : Str :=
  if 0 < p.1.immediateBytes then
    byteHex p.1.code ++ padStart (natToHex p.2) (p.1.immediateBytes * 2) '0'
  else byteHex p.1.code

theorem padStart_imm_chars (v n : Nat) (c : Char)
    (hc : c ∈ padStart (natToHex v) n '0') : isLowerHexChar c = true := by
  rcases padStart_chars _ _ _ _ hc with h | h
  · subst h; decide
  · exact natToHex_chars v c h

theorem canonicalInstr_chars (p : OpcodeInfo × Nat) (hmem : p.1 ∈ opcodeTable) :
    ∀ c ∈ canonicalInstr p, c ≠ '\n' ∧ c ≠ '/' := by
  intro c hc
  have hmn : ∀ c ∈ p.1.mnemonic, c ≠ '\n' ∧ c ≠ '/' := by
    intro x hx
    obtain ⟨-, hwf⟩ := opcodeTable_mnemonic_wf p.1 hmem
    obtain ⟨hw, hs⟩ := hwf x hx
    exact ⟨not_ws_ne_nl x hw, hs⟩
  unfold canonicalInstr at hc
  by_cases himm : 0 < p.1.immediateBytes
  · rw [if_pos himm] at hc
    rcases List.mem_append.mp hc with hc | hc
    · rcases List.mem_append.mp hc with hc | hc
      · exact hmn c hc
      · have h3 : c = ' ' ∨ c = '0' ∨ c = 'x' := by simpa using hc
        rcases h3 with h | h | h <;> (subst h; exact ⟨by decide, by decide⟩)
    · have := padStart_imm_chars p.2 (p.1.immediateBytes * 2) c hc
      exact ⟨lowerHex_ne_nl c this, lowerHex_ne_slash c this⟩
  · rw [if_neg himm] at hc
    exact hmn c hc

theorem instrHex_chars (p : OpcodeInfo × Nat) (hmem : p.1 ∈ opcodeTable) :
    ∀ c ∈ instrHex p, isLowerHexChar c = true := by
  intro c hc
  unfold instrHex at hc
  by_cases himm : 0 < p.1.immediateBytes
  · rw [if_pos himm] at hc
    rcases List.mem_append.mp hc with hc | hc
    · exact byteHex_chars p.1.code c hc
    · exact padStart_imm_chars p.2 (p.1.immediateBytes * 2) c hc
  · rw [if_neg himm] at hc
    exact byteHex_chars p.1.code c hc

theorem instrHex_length_even (p : OpcodeInfo × Nat) (hmem : p.1 ∈ opcodeTable)
    (hv : p.2 < 2 ^ (p.1.immediateBytes * 8)) :
    (instrHex p).length % 2 = 0 := by
  have hcode := opcodeTable_code_lt p.1 hmem
  have hbyte := byteHex_length p.1.code hcode
  unfold instrHex
  by_cases himm : 0 < p.1.immediateBytes
  · rw [if_pos himm]
    have hpow : p.2 < 16 ^ (p.1.immediateBytes * 2) := by
      rw [show (16 : Nat) = 2 ^ 4 from rfl, ← pow_mul,
          show 4 * (p.1.immediateBytes * 2) = p.1.immediateBytes * 8 by ring]
      exact hv
    have hlen : (padStart (natToHex p.2) (p.1.immediateBytes * 2) '0').length
        = p.1.immediateBytes * 2 := by
      rw [padStart_length]
      have := natToHex_length_le p.2 (p.1.immediateBytes * 2) (by omega) hpow
      omega
    rw [List.length_append, hbyte, hlen]
    omega
  · rw [if_neg himm, hbyte]

/-- A canonical line with an immediate assembles to its opcode byte followed
by the operand it displays. -/
theorem assembleLine_single_ok (lineNum : Nat) (mn : Str) (info : OpcodeInfo)
    (hne : mn ≠ []) (hw : ∀ c ∈ mn, isWs c = false)
    (hlook : getOpcodeByMnemonic (toUpperStr mn) = some info)
    (himm : info.immediateBytes = 0) :
    assembleLine lineNum mn = .ok (padStart (natToHex info.code) 2 '0') := by
  simp only [assembleLine]
  rw [trimStr_eq_self mn hw, if_neg hne, splitWs_single mn hne hw]
  simp only [List.headD_cons]
  rw [hlook]
  simp only [List.length_cons, List.length_nil]
  rw [if_neg (by omega)]

theorem assembleLine_canonical (lineNum : Nat) (p : OpcodeInfo × Nat)
    (hmem : p.1 ∈ opcodeTable) (hv : p.2 < 2 ^ (p.1.immediateBytes * 8)) :
    assembleLine lineNum (canonicalInstr p) = .ok (instrHex p) := by
  obtain ⟨hmne, hwf⟩ := opcodeTable_mnemonic_wf p.1 hmem
  have hwm : ∀ c ∈ p.1.mnemonic, isWs c = false := fun c hc => (hwf c hc).1
  have hlook : getOpcodeByMnemonic (toUpperStr p.1.mnemonic) = some p.1 := by
    rw [opcodeTable_mnemonic_upper p.1 hmem]
    exact opcodeTable_mnemonic_lookup p.1 hmem
  by_cases himm : 0 < p.1.immediateBytes
  · have hpad := padStart_imm_chars p.2 (p.1.immediateBytes * 2)
    have hshape : canonicalInstr p
        = p.1.mnemonic ++ ' ' :: '0' :: 'x'
            :: padStart (natToHex p.2) (p.1.immediateBytes * 2) '0' := by
      unfold canonicalInstr
      rw [if_pos himm, List.append_assoc]
      rfl
    rw [hshape]
    have hwt : ∀ c ∈ ('0' :: 'x'
        :: padStart (natToHex p.2) (p.1.immediateBytes * 2) '0'), isWs c = false := by
      intro c hc
      rcases List.mem_cons.mp hc with h | hc
      · subst h; decide
      rcases List.mem_cons.mp hc with h | hc
      · subst h; decide
      · exact hex_not_ws c (lowerHex_is_hex c (hpad c hc))
    rw [assembleLine_two lineNum p.1.mnemonic
        ('0' :: 'x' :: padStart (natToHex p.2) (p.1.immediateBytes * 2) '0') p.1
        hmne hwm (by simp) hwt hlook himm]
    rw [show ('0' :: 'x' :: padStart (natToHex p.2) (p.1.immediateBytes * 2) '0')
        = ['0', 'x'] ++ padStart (natToHex p.2) (p.1.immediateBytes * 2) '0' from rfl]
    have hpadne : padStart (natToHex p.2) (p.1.immediateBytes * 2) '0' ≠ [] := by
      intro he
      have := padStart_length (natToHex p.2) (p.1.immediateBytes * 2) '0'
      rw [he] at this
      simp at this
      omega
    have hpadhex : (padStart (natToHex p.2) (p.1.immediateBytes * 2) '0').all
        isHexChar = true :=
      List.all_eq_true.mpr (fun c hc => lowerHex_is_hex c (hpad c hc))
    rw [(parseValue_hex _ hpadne hpadhex).1]
    have hpv : parseHexNat (padStart (natToHex p.2) (p.1.immediateBytes * 2) '0')
        = p.2 := by
      rw [parseHexNat_padStart, parseHexNat_natToHex]
    rw [hpv]
    have hcast : (((2 : Nat) ^ (p.1.immediateBytes * 8) : Nat) : Int)
        = 2 ^ (p.1.immediateBytes * 8) := by
      push_cast
      ring
    have htx : toHex (p.2 : Int) p.1.immediateBytes
        = .ok (padStart (natToHex p.2) (p.1.immediateBytes * 2) '0') := by
      unfold toHex
      rw [if_neg (by omega)]
      simp only []
      rw [if_neg (by omega), Int.toNat_natCast]
    simp only [htx]
    unfold instrHex byteHex
    rw [if_pos himm]
  · have hshape : canonicalInstr p = p.1.mnemonic := by
      unfold canonicalInstr
      rw [if_neg himm]
    rw [hshape,
        assembleLine_single_ok lineNum p.1.mnemonic p.1 hmne hwm hlook (by omega)]
    unfold instrHex byteHex
    rw [if_neg himm]

theorem assembleLines_canonical : ∀ (instrs : List (OpcodeInfo × Nat)) (lineNum : Nat),
    (∀ p ∈ instrs, p.1 ∈ opcodeTable ∧ p.2 < 2 ^ (p.1.immediateBytes * 8)) →
    assembleLines lineNum (instrs.map canonicalInstr)
      = .ok ((instrs.map instrHex).flatten) := by
  intro instrs
  induction instrs with
  | nil => intro lineNum _; rfl
  | cons p rest ih =>
    intro lineNum h
    simp only [List.map_cons]
    simp only [assembleLines]
    rw [assembleLine_canonical lineNum p (h p (by simp)).1 (h p (by simp)).2]
    rw [ih (lineNum + 1) (fun q hq => h q (by simp [hq]))]
    rfl

theorem disasmLoop_instrs : ∀ (instrs : List (OpcodeInfo × Nat)),
    (∀ p ∈ instrs, p.1 ∈ opcodeTable ∧ p.2 < 2 ^ (p.1.immediateBytes * 8)) →
    disasmLoop ((instrs.map instrHex).flatten) = instrs.map canonicalInstr := by
  intro instrs
  induction instrs with
  | nil =>
    intro _
    simp only [List.map_nil, List.flatten_nil]
    simp only [disasmLoop]
  | cons p rest ih =>
    intro h
    obtain ⟨hmem, hv⟩ := h p (by simp)
    have hcode := opcodeTable_code_lt p.1 hmem
    have hlookc := opcodeTable_code_lookup p.1 hmem
    have hrest := ih (fun q hq => h q (by simp [hq]))
    simp only [List.map_cons, List.flatten_cons]
    by_cases himm : 0 < p.1.immediateBytes
    · rw [show instrHex p = byteHex p.1.code
          ++ padStart (natToHex p.2) (p.1.immediateBytes * 2) '0' from
          by unfold instrHex; rw [if_pos himm]]
      rw [List.append_assoc]
      rw [disasmLoop_opImm p.1 p.2 _ hlookc hcode himm hv]
      rw [hrest]
      rw [show canonicalInstr p = p.1.mnemonic ++ " 0x".data
          ++ padStart (natToHex p.2) (p.1.immediateBytes * 2) '0' from
          by unfold canonicalInstr; rw [if_pos himm]]
    · rw [show instrHex p = byteHex p.1.code from by unfold instrHex; rw [if_neg himm]]
      rw [disasmLoop_op p.1 _ hlookc hcode (by omega)]
      rw [hrest]
      rw [show canonicalInstr p = p.1.mnemonic from
          by unfold canonicalInstr; rw [if_neg himm]]

theorem instrs_flatten_even : ∀ (instrs : List (OpcodeInfo × Nat)),
    (∀ p ∈ instrs, p.1 ∈ opcodeTable ∧ p.2 < 2 ^ (p.1.immediateBytes * 8)) →
    ((instrs.map instrHex).flatten).length % 2 = 0 := by
  intro instrs
  induction instrs with
  | nil => intro _; rfl
  | cons p rest ih =>
    intro h
    simp only [List.map_cons, List.flatten_cons, List.length_append]
    have h1 := instrHex_length_even p (h p (by simp)).1 (h p (by simp)).2
    have h2 := ih (fun q hq => h q (by simp [hq]))
    omega

/-- disassemble applied to 0x followed by the hex of a canonical instruction
sequence recovers the canonical source. -/
theorem disassemble_canonical (instrs : List (OpcodeInfo × Nat))
    (h : ∀ p ∈ instrs, p.1 ∈ opcodeTable ∧ p.2 < 2 ^ (p.1.immediateBytes * 8)) :
    disassemble ('0' :: 'x' :: (instrs.map instrHex).flatten)
      = .ok (canonicalRender instrs) := by
  have hchars : ∀ c ∈ (instrs.map instrHex).flatten, isLowerHexChar c = true := by
    intro c hc
    obtain ⟨l, hl, hcl⟩ := List.mem_flatten.mp hc
    obtain ⟨q, hq, hql⟩ := List.mem_map.mp hl
    exact instrHex_chars q (h q hq).1 c (hql ▸ hcl)
  have heven := instrs_flatten_even instrs h
  simp only [disassemble]
  rw [if_pos (Or.inl (by simp [List.isPrefixOf]))]
  rw [show List.drop 2 ('0' :: 'x' :: (instrs.map instrHex).flatten)
      = (instrs.map instrHex).flatten from rfl]
  rw [toLowerStr_eq_self _ hchars]
  rw [if_neg (fun hc => hc heven)]
  rw [if_neg (by simp [List.all_eq_true.mpr hchars])]
  rw [disasmLoop_instrs instrs h]
  rfl

/-- C1 counterexample: the source PUSH2 0x01 is canonical in the claim's
sense (uppercase mnemonic, single space, 0x-prefixed lowercase immediate,
no comments), yet it round-trips to PUSH2 0x0001, which differs from the
source by more than whitespace, refuting both the exact canonical-form
round trip and the round trip modulo whitespace normalization. -/
theorem C1_counterexample :
    assemble "PUSH2 0x01".data = .ok "0x610001".data ∧
    disassemble "0x610001".data = .ok "PUSH2 0x0001".data ∧
    "PUSH2 0x0001".data ≠ "PUSH2 0x01".data := by
  refine ⟨?_, ?_, by decide⟩
  · have hstrip : stripComments "PUSH2 0x01".data = "PUSH2 0x01".data :=
      stripComments_eq_self _ (by decide)
    have hlook : getOpcodeByMnemonic (toUpperStr "PUSH2".data)
        = some (opImm 0x61 "PUSH2" [] ["value"] 2) := rfl
    have hpv : parseValue ("0x01".data) = .ok 1 := by
      rw [show "0x01".data = ['0', 'x'] ++ "01".data from rfl,
          (parseValue_hex "01".data (by decide) (by decide)).1]
      decide
    have htwo := assembleLine_two 0 "PUSH2".data "0x01".data
        (opImm 0x61 "PUSH2" [] ["value"] 2) (by decide) (by decide) (by decide)
        (by decide) hlook (by decide)
    have hline : assembleLine 0 "PUSH2 0x01".data = .ok "610001".data := by
      rw [show "PUSH2 0x01".data = "PUSH2".data ++ ' ' :: "0x01".data from rfl,
          htwo, hpv]
      decide
    simp only [assemble]
    rw [hstrip]
    rw [show splitNl "PUSH2 0x01".data = ["PUSH2 0x01".data] from by decide]
    simp only [assembleLines]
    rw [hline]
    decide
  · have hb : "610001".data
        = (([((opImm 0x61 "PUSH2" [] ["value"] 2 : OpcodeInfo), (1 : Nat))].map
            instrHex).flatten) := by decide
    have hd := disassemble_canonical
        [((opImm 0x61 "PUSH2" [] ["value"] 2 : OpcodeInfo), (1 : Nat))] (by decide)
    rw [show "0x610001".data = '0' :: 'x' :: "610001".data from rfl, hb, hd]
    decide

/-- C1 (amended): round trip for the zero-padded canonical form. For any
instruction sequence drawn from the opcode table with immediates in range,
rendering each instruction as the uppercase mnemonic followed (for
immediate-carrying opcodes) by a single space and its 0x-prefixed lowercase
immediate zero-padded to exactly 2 * immediateBytes hex digits, joining
with single newlines and no comments, assembly succeeds and disassembling
the assembled bytecode returns exactly the source. -/
theorem C1_round_trip (instrs : List (OpcodeInfo × Nat))
    (h : ∀ p ∈ instrs, p.1 ∈ opcodeTable ∧ p.2 < 2 ^ (p.1.immediateBytes * 8)) :
    ∃ bytecode : Str,
      assemble (canonicalRender instrs) = .ok bytecode ∧
      disassemble bytecode = .ok (canonicalRender instrs) := by
  refine ⟨'0' :: 'x' :: (instrs.map instrHex).flatten, ?_,
    disassemble_canonical instrs h⟩
  cases instrs with
  | nil =>
    have hstrip : stripComments (canonicalRender []) = canonicalRender [] :=
      stripComments_eq_self _ (by decide)
    simp only [assemble]
    rw [hstrip]
    decide
  | cons q qs =>
    have hne : (q :: qs).map canonicalInstr ≠ [] := by simp
    have hlinechars : ∀ l ∈ (q :: qs).map canonicalInstr, ∀ c ∈ l, c ≠ '\n' := by
      intro l hl c hc
      obtain ⟨p, hp, hpl⟩ := List.mem_map.mp hl
      exact ((canonicalInstr_chars p (h p hp).1) c (hpl ▸ hc)).1
    have hsrc_slash : ∀ c ∈ canonicalRender (q :: qs), c ≠ '/' := by
      intro c hc
      have hc2 : c ∈ joinNl ((q :: qs).map canonicalInstr) := hc
      rcases mem_joinNl _ c hc2 with h1 | ⟨l, hl, hcl⟩
      · subst h1; decide
      · obtain ⟨p, hp, hpl⟩ := List.mem_map.mp hl
        exact ((canonicalInstr_chars p (h p hp).1) c (hpl ▸ hcl)).2
    have hstrip : stripComments (canonicalRender (q :: qs))
        = canonicalRender (q :: qs) :=
      stripComments_eq_self _ hsrc_slash
    simp only [assemble]
    rw [hstrip]
    rw [show canonicalRender (q :: qs) = joinNl ((q :: qs).map canonicalInstr)
        from rfl]
    rw [splitNl_joinNl _ hne hlinechars]
    rw [assembleLines_canonical (q :: qs) 0 h]
    rfl

/-- Concrete run of the amended round trip: the single canonical line
PUSH2 0x0042 assembles and disassembles back to itself. -/
theorem C1_round_trip_witness :
    (∀ p ∈ [((opImm 0x61 "PUSH2" [] ["value"] 2 : OpcodeInfo), (66 : Nat))],
      p.1 ∈ opcodeTable ∧ p.2 < 2 ^ (p.1.immediateBytes * 8)) ∧
    (∃ bytecode : Str,
      assemble (canonicalRender
          [((opImm 0x61 "PUSH2" [] ["value"] 2 : OpcodeInfo), (66 : Nat))])
        = .ok bytecode ∧
      disassemble bytecode
        = .ok (canonicalRender
            [((opImm 0x61 "PUSH2" [] ["value"] 2 : OpcodeInfo), (66 : Nat))])) :=
  ⟨by decide, C1_round_trip _ (by decide)⟩

/-- The normalization performed by disassemble before validation: strip an
optional 0x or 0X prefix, then lowercase. -/
def normalizeHex (input : Str) : Str :=
  toLowerStr
    (if ['0', 'x'].isPrefixOf input ∨ ['0', 'X'].isPrefixOf input
     then input.drop 2 else input)

/-- C8: disassemble raises an error if and only if its input, after
stripping an optional 0x/0X prefix and lowercasing, has an odd number of hex
characters or contains a character outside [0-9a-f]; on every byte-encoded
input it returns the newline-join of the byte-level decoding in which an
undefined opcode byte yields INVALID(0xNN), a defined opcode with
immediateBytes n consumes the next n bytes as its 0x-prefixed operand, and
fewer than n remaining bytes yield the partial operand with the truncation
suffix; and every normalized input passing validation is the hex rendering
of some byte sequence, so the decoding description is total over the
non-error inputs. -/
theorem C8_disassembler_totality (input : Str) :
    ((∃ e, disassemble input = .error e) ↔
      ¬((normalizeHex input).length % 2 = 0 ∧
        (normalizeHex input).all isLowerHexChar = true)) ∧
    (∀ bytes : List Nat, (∀ b ∈ bytes, b < 256) →
      normalizeHex input = bytesToHex bytes →
      disassemble input = .ok (joinNl (decodeBytes bytes))) ∧
    ((normalizeHex input).length % 2 = 0 →
      (normalizeHex input).all isLowerHexChar = true →
      ∃ bytes : List Nat, (∀ b ∈ bytes, b < 256) ∧
        normalizeHex input = bytesToHex bytes) := by
  have hdis : disassemble input =
      (if (normalizeHex input).length % 2 ≠ 0 then .error .oddLengthHex
       else if ¬ ((normalizeHex input).all isLowerHexChar) then .error .nonHexChar
       else .ok (joinNl (disasmLoop (normalizeHex input)))) := rfl
  refine ⟨?_, ?_, ?_⟩
  · constructor
    · rintro ⟨e, he⟩ hcon
      rw [hdis, if_neg (by simp [hcon.1]), if_neg (by simp [hcon.2])] at he
      exact Except.noConfusion he
    · intro hcon
      by_cases h1 : (normalizeHex input).length % 2 = 0
      · have h2 : (normalizeHex input).all isLowerHexChar = false := by
          cases hall : (normalizeHex input).all isLowerHexChar
          · rfl
          · exact absurd ⟨h1, hall⟩ hcon
        exact ⟨.nonHexChar, by rw [hdis, if_neg (by simp [h1]), if_pos (by simp [h2])]⟩
      · exact ⟨.oddLengthHex, by rw [hdis, if_pos h1]⟩
  · intro bytes hbs hhex
    have heven : (normalizeHex input).length % 2 = 0 := by
      rw [hhex, bytesToHex_length bytes hbs]
      omega
    have hall : (normalizeHex input).all isLowerHexChar = true := by
      rw [hhex]
      exact List.all_eq_true.mpr (fun c hc => bytesToHex_chars bytes c hc)
    rw [hdis, if_neg (by simp [heven]), if_neg (by simp [hall]), hhex]
    rw [disasmLoop_bytesToHex bytes.length bytes le_rfl hbs]
  · intro h1 h2
    have hchars : ∀ c ∈ normalizeHex input, isLowerHexChar c = true :=
      fun c hc => List.all_eq_true.mp h2 c hc
    obtain ⟨hback, hlt⟩ := hexToBytes_spec (normalizeHex input) h1 hchars
    exact ⟨hexToBytes (normalizeHex input), hlt, hback.symm⟩

/-- Concrete run of C8: the input 0x0C61Ff normalizes to the hex of the
bytes [12, 97, 255] and decodes to INVALID(0x0c) followed by a truncated
PUSH2. -/
theorem C8_witness :
    (∀ b ∈ [12, 97, 255], b < 256) ∧
    normalizeHex "0x0C61Ff".data = bytesToHex [12, 97, 255] ∧
    disassemble "0x0C61Ff".data = .ok (joinNl (decodeBytes [12, 97, 255])) :=
  ⟨by decide, by decide,
    (C8_disassembler_totality ("0x0C61Ff".data)).2.1 [12, 97, 255]
      (by decide) (by decide)⟩

end Evmd


